import Mathlib

/-!
# Verification of `main.py` (consulting-agent)

Shallow embedding of the program's pure core: the JSON extractor
`clean_and_parse_json` (including the embedded model of Python's strict
`json.loads` / `json.dumps`), the `tavily_search` error wrapper, and the
four-stage orchestrator `main`, together with proofs settling the frozen
claims about the natural-language specification.

Modelling conventions:
* Python strings are Lean `List Char` / `String`.
* Python floats are modelled as exact decimal numbers (mantissa and decimal
  exponent), since IEEE-754 rounding is outside the scope of a shallow
  embedding; `json.dumps` of a float is modelled as the exact decimal literal
  `<mantissa>e<exponent>`.  Both the real implementation and the model print
  a literal that parses back to the same value, which is the only property
  the claims depend on.
* A lone UTF-16 surrogate produced by a `\uXXXX` escape (representable in a
  Python `str` but not in a Lean `Char`) is modelled as `Char.ofNat` of its
  code, which falls back to the NUL character.
* `str.strip()` is modelled over the ASCII whitespace characters.
* External effects (the two collaborator clients, `input`, the file system)
  are modelled as explicit environment data; exceptions raised by external
  calls are modelled as an explicit `raises` outcome.
-/

/-- Python values produced by `json.loads`: `None`, booleans, numbers
(`isFloat` distinguishes Python `float` from `int`; the value is
`m * 10 ^ e`), strings, lists and dicts (assoc lists in insertion order). -/
inductive Json where
  | null : Json
  | bool (b : Bool) : Json
  | num (isFloat : Bool) (m : Int) (e : Int) : Json
  | str (s : String) : Json
  | arr (elems : List Json) : Json
  | obj (members : List (String × Json)) : Json

namespace Json

/-- Size measure used for recursion/fuel bookkeeping. -/
def size : Json → Nat
  | .null => 1
  | .bool _ => 1
  | .num _ _ _ => 1
  | .str _ => 1
  | .arr l => 1 + sizeElems l
  | .obj l => 1 + sizeMembers l
where
  /-- Size of an array body. -/
  sizeElems : List Json → Nat
    | [] => 1
    | x :: xs => 1 + max (size x) (sizeElems xs)
  /-- Size of an object body. -/
  sizeMembers : List (String × Json) → Nat
    | [] => 1
    | kv :: xs => 1 + max (size kv.2) (sizeMembers xs)

end Json

/-! ## Characters and tokens -/

/-- JSON whitespace accepted by `json.loads` (`[ \t\n\r]`). -/
def isJsonWs (c : Char) : Bool :=
  c = ' ' || c = '\t' || c = '\n' || c = '\r'

/-- Whitespace stripped by Python's `str.strip()` (ASCII portion). -/
def isStripWs (c : Char) : Bool :=
  c = ' ' || c = '\t' || c = '\n' || c = '\r' || c = '\x0b' || c = '\x0c'

/-- Skip JSON whitespace. -/
def skipWs (cs : List Char) : List Char := cs.dropWhile isJsonWs

/-- Value of one hexadecimal digit, accepting both cases. -/
def hexVal? (c : Char) : Option Nat :=
  if '0' ≤ c ∧ c ≤ '9' then some (c.toNat - 48)
  else if 'a' ≤ c ∧ c ≤ 'f' then some (c.toNat - 87)
  else if 'A' ≤ c ∧ c ≤ 'F' then some (c.toNat - 55)
  else none

/-- Characters that can occur in a JSON number token; the scanner takes the
maximal run of these before validating it (equivalent to the strict number
regex of `json.decoder` at every position a number may legally end). -/
def isNumChar (c : Char) : Bool :=
  c.isDigit || c = '-' || c = '+' || c = '.' || c = 'e' || c = 'E'

/-- Numeric value of a run of decimal digits (most significant first). -/
def digitsVal (ds : List Char) : Nat :=
  ds.foldl (fun a c => 10 * a + (c.toNat - 48)) 0

/-- Validate and convert one maximal number token, following the strict
JSON grammar `-? int frac? exp?` (no leading zeros, no bare `.`/`e`). -/
def numFromToken (tok : List Char) : Option Json :=
  let t1 := if tok.head? = some '-' then tok.tail else tok
  let neg : Bool := tok.head? = some '-'
  let ip := t1.takeWhile Char.isDigit
  let t2 := t1.drop ip.length
  if ip = [] then none
  else if 1 < ip.length ∧ ip.head? = some '0' then none
  else
    let fp := if t2.head? = some '.' then t2.tail.takeWhile Char.isDigit else []
    let t4 := if t2.head? = some '.' then t2.tail.drop fp.length else t2
    if t2.head? = some '.' ∧ fp = [] then none
    else
      if t4 = [] then
        some (.num (fp ≠ [])
          (if neg then -(digitsVal (ip ++ fp) : Int) else (digitsVal (ip ++ fp) : Int))
          (-(fp.length : Int)))
      else
        if t4.head? = some 'e' ∨ t4.head? = some 'E' then
          let t5 := t4.tail
          let esign : Int := if t5.head? = some '-' then -1 else 1
          let t6 := if t5.head? = some '+' ∨ t5.head? = some '-' then t5.tail else t5
          let ed := t6.takeWhile Char.isDigit
          if ed = [] ∨ t6.drop ed.length ≠ [] then none
          else
            some (.num true
              (if neg then -(digitsVal (ip ++ fp) : Int) else (digitsVal (ip ++ fp) : Int))
              (esign * (digitsVal ed : Int) - (fp.length : Int)))
        else none

/-- Scan a number at the head of the input: maximal munch then validation. -/
def parseNumber (cs : List Char) : Option (Json × List Char) :=
  match numFromToken (cs.takeWhile isNumChar) with
  | some j => some (j, cs.dropWhile isNumChar)
  | none => none

/-- Build a `Char` from a code point, NUL on invalid codes (lone surrogates). -/
def mkChar (n : Nat) : Char := Char.ofNat n

/-- After a high surrogate `n` decoded from `\uXXXX`, look for a following
`\uXXXX` low surrogate and recombine; otherwise the high surrogate stands
alone.  `r2` is the input after the first escape. -/
def surrogateCont (n : Nat) (r2 : List Char) : Option (Char × List Char) :=
  match r2 with
  | s1 :: s2 :: a2 :: b2 :: c2 :: d2 :: r3 =>
    if s1 = '\\' ∧ s2 = 'u' then
      match hexVal? a2, hexVal? b2, hexVal? c2, hexVal? d2 with
      | some ka, some kb, some kc, some kd =>
        if 0xDC00 ≤ 4096 * ka + 256 * kb + 16 * kc + kd ∧
            4096 * ka + 256 * kb + 16 * kc + kd < 0xE000 then
          some (mkChar (0x10000 + (n - 0xD800) * 0x400 +
            (4096 * ka + 256 * kb + 16 * kc + kd - 0xDC00)), r3)
        else some (mkChar n, s1 :: s2 :: a2 :: b2 :: c2 :: d2 :: r3)
      | _, _, _, _ => some (mkChar n, s1 :: s2 :: a2 :: b2 :: c2 :: d2 :: r3)
    else some (mkChar n, s1 :: s2 :: a2 :: b2 :: c2 :: d2 :: r3)
  | _ => some (mkChar n, r2)

/-- Decode one `\uXXXX` escape; `r1` is the input after the `u`. -/
def unescapeU (r1 : List Char) : Option (Char × List Char) :=
  match r1 with
  | a :: b :: c :: d :: r2 =>
    match hexVal? a, hexVal? b, hexVal? c, hexVal? d with
    | some ha, some hb, some hc, some hd =>
      if 0xD800 ≤ 4096 * ha + 256 * hb + 16 * hc + hd ∧
          4096 * ha + 256 * hb + 16 * hc + hd < 0xDC00 then
        surrogateCont (4096 * ha + 256 * hb + 16 * hc + hd) r2
      else some (mkChar (4096 * ha + 256 * hb + 16 * hc + hd), r2)
    | _, _, _, _ => none
  | _ => none

/-- Decode one escape sequence after the backslash; returns the decoded
character and the rest of the input.  Mirrors CPython's `c_scanstring`:
the eight short escapes, `\uXXXX`, and surrogate-pair recombination (a
high surrogate not followed by a low one stays alone). -/
def unescape1 (r : List Char) : Option (Char × List Char) :=
  match r with
  | [] => none
  | e :: r1 =>
    if e = '"' then some ('"', r1)
    else if e = '\\' then some ('\\', r1)
    else if e = '/' then some ('/', r1)
    else if e = 'b' then some ('\x08', r1)
    else if e = 'f' then some ('\x0c', r1)
    else if e = 'n' then some ('\n', r1)
    else if e = 'r' then some ('\r', r1)
    else if e = 't' then some ('\t', r1)
    else if e = 'u' then unescapeU r1
    else none

/-- Fueled scanner for a JSON string body (after the opening quote): literal
characters up to the closing quote, rejecting raw control characters
(strict mode) and decoding escapes via `unescape1`.  Returns the decoded
characters and the input after the closing quote.  Every step consumes at
least one character, so fuel `length + 1` (as supplied by the wrapper
`parseStringBody`) can never run out. -/
def parseStringBodyF : Nat → List Char → Option (List Char × List Char)
  | 0, _ => none
  | f + 1, cs =>
    match cs with
    | [] => none
    | c :: rest =>
      if c = '"' then some ([], rest)
      else if c = '\\' then
        match unescape1 rest with
        | some (ch, r1) =>
          match parseStringBodyF f r1 with
          | some (s, r2) => some (ch :: s, r2)
          | none => none
        | none => none
      else if c.toNat < 32 then none
      else
        match parseStringBodyF f rest with
        | some (s, r2) => some (c :: s, r2)
        | none => none

/-- Scan a JSON string body with always-sufficient fuel. -/
def parseStringBody (cs : List Char) : Option (List Char × List Char) :=
  parseStringBodyF (cs.length + 1) cs

/-- Python-dict insertion (`d[k] = v`): replace the value in place if the key
is present, otherwise append the new pair at the end. -/
def insertKV : List (String × Json) → String → Json → List (String × Json)
  | [], k, v => [(k, v)]
  | (k', v') :: rest, k, v =>
    if k' = k then (k', v) :: rest else (k', v') :: insertKV rest k v

mutual

/-- Fueled JSON value scanner: skip whitespace and dispatch on the first
character, as `json.scanner.py_make_scanner` does.  `none` covers every
`JSONDecodeError` (and fuel exhaustion, which cannot occur at the fuel
`parseJson` supplies). -/
def parseValueF : Nat → List Char → Option (Json × List Char)
  | 0, _ => none
  | fuel + 1, cs =>
    match skipWs cs with
    | [] => none
    | c :: rest =>
      if c = '{' then parseObjRest fuel rest [] true
      else if c = '[' then parseArrRest fuel rest [] true
      else if c = '"' then
        match parseStringBody rest with
        | some (s, r) => some (.str (String.mk s), r)
        | none => none
      else if c = 't' then
        if rest.take 3 = ['r', 'u', 'e'] then some (.bool true, rest.drop 3) else none
      else if c = 'f' then
        if rest.take 4 = ['a', 'l', 's', 'e'] then some (.bool false, rest.drop 4) else none
      else if c = 'n' then
        if rest.take 3 = ['u', 'l', 'l'] then some (.null, rest.drop 3) else none
      else if c.isDigit ∨ c = '-' then parseNumber (c :: rest)
      else none

/-- Object members after `{` (when `atStart` is true) or after a `,`
(when it is false, so a closing `}` would be a trailing comma and is
rejected).  Pairs accumulate into `acc` by Python-dict insertion. -/
def parseObjRest : Nat → List Char → List (String × Json) → Bool → Option (Json × List Char)
  | 0, _, _, _ => none
  | fuel + 1, cs, acc, atStart =>
    match skipWs cs with
    | [] => none
    | c :: rest =>
      if c = '}' then
        if atStart then some (.obj acc, rest) else none
      else if c = '"' then
        match parseStringBody rest with
        | some (k, r1) =>
          match skipWs r1 with
          | c2 :: r2 =>
            if c2 = ':' then
              match parseValueF fuel r2 with
              | some (v, r3) =>
                match skipWs r3 with
                | c3 :: r4 =>
                  if c3 = ',' then parseObjRest fuel r4 (insertKV acc (String.mk k) v) false
                  else if c3 = '}' then some (.obj (insertKV acc (String.mk k) v), r4)
                  else none
                | [] => none
              | none => none
            else none
          | [] => none
        | none => none
      else none

/-- Array elements after `[` (when `atStart` is true) or after a `,`. -/
def parseArrRest : Nat → List Char → List Json → Bool → Option (Json × List Char)
  | 0, _, _, _ => none
  | fuel + 1, cs, acc, atStart =>
    match skipWs cs with
    | [] => none
    | c :: rest =>
      if c = ']' then
        if atStart then some (.arr acc, rest) else none
      else
        match parseValueF fuel (c :: rest) with
        | some (v, r1) =>
          match skipWs r1 with
          | c2 :: r2 =>
            if c2 = ',' then parseArrRest fuel r2 (acc ++ [v]) false
            else if c2 = ']' then some (.arr (acc ++ [v]), r2)
            else none
          | [] => none
        | none => none

end

/-- `json.loads` on a character list: parse one value and require only
whitespace to follow ("Extra data" otherwise).  The fuel `length + 1`
always suffices: every two fuel steps consume at least one character. -/
def parseJson (cs : List Char) : Option Json :=
  match parseValueF (cs.length + 1) cs with
  | some (v, r) => if skipWs r = [] then some v else none
  | none => none

/-! ## The JSON extractor `clean_and_parse_json` (main.py lines 207-230) -/

/-- Fueled engine for Python's `str.replace(pat, '')`: scan left to right,
deleting each non-overlapping occurrence of `pat`.  Each step consumes at
least one character, so fuel `length` (as supplied by `delOcc`) never runs
out for the nonempty patterns used here. -/
def delOccF (pat : List Char) : Nat → List Char → List Char
  | 0, cs => cs
  | _ + 1, [] => []
  | f + 1, c :: cs =>
    if pat.isPrefixOf (c :: cs) then delOccF pat f ((c :: cs).drop pat.length)
    else c :: delOccF pat f cs

/-- Python's `s.replace(pat, '')`. -/
def delOcc (pat cs : List Char) : List Char := delOccF pat cs.length cs

/-- Drop trailing characters satisfying `p`. -/
def dropEndWhile (p : Char → Bool) (cs : List Char) : List Char :=
  (cs.reverse.dropWhile p).reverse

/-- Python's `s.strip()`. -/
def pyStrip (cs : List Char) : List Char :=
  dropEndWhile isStripWs (cs.dropWhile isStripWs)

/-- The fenced-marker characters removed by `clean_and_parse_json`. -/
def ticksJson : List Char := ['`', '`', '`', 'j', 's', 'o', 'n']

/-- The plain fence marker. -/
def ticks3 : List Char := ['`', '`', '`']

/-- `raw_content.replace('```json', '').replace('```', '').strip()`. -/
def cleanContent (cs : List Char) : List Char :=
  pyStrip (delOcc ticks3 (delOcc ticksJson cs))

/-- `re.search(r'(\{.*\})', clean_content, re.DOTALL)`: with a greedy `.*`
under DOTALL, the match (if any) runs from the first `{` that has some `}`
after it to the last `}` of the text. -/
def extractSpan (cs : List Char) : Option (List Char) :=
  match cs.dropWhile (· ≠ '{') with
  | [] => none
  | c :: rest =>
    if '}' ∈ rest then some (c :: (rest.reverse.dropWhile (· ≠ '}')).reverse)
    else none

/-- The three behaviours of `clean_and_parse_json`, distinguished in its
console/log output: no brace span found (lines 216-219), span found but
`json.loads` raised `JSONDecodeError` (lines 225-230), and success. -/
inductive ExtractOutcome where
  | noJsonFound : ExtractOutcome
  | malformedJson (span : List Char) : ExtractOutcome
  | parsed (v : Json) : ExtractOutcome

/-- `clean_and_parse_json` on a character list, keeping which branch ran. -/
def extractOutcomeChars (cs : List Char) : ExtractOutcome :=
  match extractSpan (cleanContent cs) with
  | none => .noJsonFound
  | some span =>
    match parseJson span with
    | none => .malformedJson span
    | some v => .parsed v

/-- The value `clean_and_parse_json` returns to its caller: the parsed
object on success and `None` on either failure branch. -/
def cleanParseChars (cs : List Char) : Option Json :=
  match extractOutcomeChars cs with
  | .parsed v => some v
  | _ => none

/-- `clean_and_parse_json` (main.py lines 207-230). -/
def clean_and_parse_json (raw : String) : Option Json :=
  cleanParseChars raw.data

/-- `clean_and_parse_json` with its branch visible (for statements about
which failure message is logged). -/
def extractOutcome (raw : String) : ExtractOutcome :=
  extractOutcomeChars raw.data

/-! ## `tavily_search` (main.py lines 32-44) -/

/-- The keyword arguments `tavily_search` passes to `tavily_client.search`. -/
structure TavilyRequest where
  query : String
  search_depth : String
  include_answer : Bool
  max_results : Nat
  sort_by : String

/-- The request `tavily_search` builds for a given query string. -/
def tavilyRequest (query : String) : TavilyRequest :=
  { query := query
    search_depth := "advanced"
    include_answer := true
    max_results := 10
    sort_by := "relevance_and_recency" }

/-- `tavily_search`: the external client either returns a response or raises;
a raised exception with message `e` is caught and converted to the dict
`{"error": str(e)}`.  `impl` stands for `tavily_client.search`. -/
def tavily_search (impl : TavilyRequest → Except String Json) (query : String) : Json :=
  match impl (tavilyRequest query) with
  | .ok r => r
  | .error e => Json.obj [("error", Json.str e)]

/-! ## The orchestrator `main` (main.py lines 232-322) -/

/-- Outcome of one external stage call (`client.run` followed by reading
`messages[-1]["content"]`): the generated raw text, or a raised exception. -/
inductive StageCall where
  | raises (msg : String) : StageCall
  | returns (raw : String) : StageCall

/-- The environment of a run: the operator's two inputs and the outcome of
each of the four stage calls (used only if that stage is reached). -/
structure Env where
  companyUrl : String
  stage1 : StageCall
  stage2 : StageCall
  stage3 : StageCall
  sellingCompany : String
  stage4 : StageCall

/-- Python truthiness of a parsed JSON value (`if company_info:` etc.);
`None`, `False`, zero, and empty containers/strings are falsy. -/
def pyTruthy : Json → Bool
  | .null => false
  | .bool b => b
  | .num _ m _ => if m = 0 then false else true
  | .str s => if s = "" then false else true
  | .arr [] => false
  | .arr (_ :: _) => true
  | .obj [] => false
  | .obj (_ :: _) => true

/-- A stage's parse step as the orchestrator's `if` sees it: the code binds
`clean_and_parse_json(raw_content)` and branches on its truthiness, so a
`None` result and a falsy (empty-dict) result take the same failure branch. -/
def stageParsed (raw : String) : Option Json :=
  match clean_and_parse_json raw with
  | some v => if pyTruthy v then some v else none
  | none => none

/-- The persisted document: an insertion-ordered dict. -/
abbrev Doc := List (String × Json)

/-- The placeholder stored when stage 3 fails (main.py line 286). -/
def challengesPlaceholder : Json := Json.obj [("error", Json.str "Failed to parse")]

/-- State threaded through the `try` block: the `combined_output` dict, the
successive values it takes (for monotonicity statements), and the contents
written to `combined_analysis.json` so far (the line-310 write). -/
structure TryState where
  co : Doc
  trace : List Doc
  writes : List Doc

/-- How the `try` block ends: normal completion, an early `return`
(lines 252, 268, 307), or an exception propagating to the handler. -/
inductive TryResult where
  | ok (s : TryState) : TryResult
  | ret (s : TryState) : TryResult
  | exc (msg : String) (s : TryState) : TryResult

/-- The `try` block of `main` (lines 241-312), stage by stage. -/
def tryBody (env : Env) : TryResult :=
  let s0 : TryState := { co := [], trace := [[]], writes := [] }
  match env.stage1 with
  | .raises m => .exc m s0
  | .returns raw1 =>
    match stageParsed raw1 with
    | none => .ret s0
    | some v1 =>
      let co1 : Doc := [("company_info", v1)]
      let s1 : TryState := { co := co1, trace := s0.trace ++ [co1], writes := [] }
      match env.stage2 with
      | .raises m => .exc m s1
      | .returns raw2 =>
        match stageParsed raw2 with
        | none => .ret s1
        | some v2 =>
          let co2 : Doc := co1 ++ [("pain_points", v2)]
          let s2 : TryState := { co := co2, trace := s1.trace ++ [co2], writes := [] }
          match env.stage3 with
          | .raises m => .exc m s2
          | .returns raw3 =>
            let ic : Json :=
              match stageParsed raw3 with
              | some v3 => v3
              | none => challengesPlaceholder
            let co3 : Doc := co2 ++ [("industry_challenges", ic)]
            let co4 : Doc := co3 ++ [("selling_company", Json.str env.sellingCompany)]
            let s4 : TryState :=
              { co := co4, trace := s2.trace ++ [co3, co4], writes := [] }
            match env.stage4 with
            | .raises m => .exc m s4
            | .returns raw4 =>
              match stageParsed raw4 with
              | none => .ret s4
              | some v4 =>
                let co5 : Doc := co4 ++ [("solutions", v4)]
                .ok { co := co5, trace := s4.trace ++ [co5], writes := [co5] }

/-- Observable result of one run of `main`. -/
structure MainResult where
  final : Doc
  trace : List Doc
  fileWrites : List Doc
  caught : Option String

/-- `main` (lines 232-322): run the `try` block; an exception is caught,
logged and falls through; both the normal and the caught path then execute
the unconditional save at lines 319-322, while an early `return` exits
`main` immediately and skips it. -/
def runMain (env : Env) : MainResult :=
  match tryBody env with
  | .ok s => { final := s.co, trace := s.trace, fileWrites := s.writes ++ [s.co], caught := none }
  | .ret s => { final := s.co, trace := s.trace, fileWrites := s.writes, caught := none }
  | .exc m s =>
    { final := s.co, trace := s.trace, fileWrites := s.writes ++ [s.co], caught := some m }

/-! ## Brace-span lemmas for the no-JSON-found branch -/

/-- The text contains a `{` with some `}` after it — exactly when
`re.search(r'(\{.*\})', ·, re.DOTALL)` finds a match. -/
def hasBraceSpan : List Char → Bool
  | [] => false
  | c :: cs => if c = '{' then decide ('}' ∈ cs) else hasBraceSpan cs

/-! ## The serializer: `json.dumps` with default options -/

/-- Decimal digits of `n` (least significant first), with fuel. -/
def natCharsAux : Nat → Nat → List Char
  | 0, _ => []
  | _ + 1, 0 => []
  | f + 1, n => Nat.digitChar (n % 10) :: natCharsAux f (n / 10)

/-- Python's `str(n)` for a natural number. -/
def natToChars (n : Nat) : List Char :=
  if n = 0 then ['0'] else (natCharsAux n n).reverse

/-- Python's `str(m)` for an integer. -/
def intToChars (m : Int) : List Char :=
  if m < 0 then '-' :: natToChars m.natAbs else natToChars m.natAbs

/-- Four lowercase hex digits, as CPython's `\uXXXX` escapes print them. -/
def hex4 (n : Nat) : List Char :=
  [Nat.digitChar (n / 4096 % 16), Nat.digitChar (n / 256 % 16),
   Nat.digitChar (n / 16 % 16), Nat.digitChar (n % 16)]

/-- `json.dumps` escaping of one character (`ensure_ascii=True`): the two
specials, the five shorthand escapes, printable ASCII verbatim, and
`\uXXXX` otherwise, astral characters as a surrogate pair. -/
def escapeChar (c : Char) : List Char :=
  if c = '"' then ['\\', '"']
  else if c = '\\' then ['\\', '\\']
  else if c = '\n' then ['\\', 'n']
  else if c = '\r' then ['\\', 'r']
  else if c = '\t' then ['\\', 't']
  else if c = '\x08' then ['\\', 'b']
  else if c = '\x0c' then ['\\', 'f']
  else if 0x20 ≤ c.toNat ∧ c.toNat ≤ 0x7E then [c]
  else if c.toNat < 0x10000 then '\\' :: 'u' :: hex4 c.toNat
  else '\\' :: 'u' :: hex4 (0xD800 + (c.toNat - 0x10000) / 0x400) ++
    '\\' :: 'u' :: hex4 (0xDC00 + (c.toNat - 0x10000) % 0x400)

/-- Escape a whole string body. -/
def escapeList : List Char → List Char
  | [] => []
  | c :: cs => escapeChar c ++ escapeList cs

mutual

/-- Model of `json.dumps(v)` (default separators `', '` and `': '`,
`ensure_ascii=True`); floats are printed as the exact decimal
`<mantissa>e<exponent>` (see the module docstring). -/
def dumpsV : Json → List Char
  | .null => "null".data
  | .bool true => "true".data
  | .bool false => "false".data
  | .num false m _ => intToChars m
  | .num true m e => intToChars m ++ 'e' :: intToChars e
  | .str s => '"' :: escapeList s.data ++ ['"']
  | .arr [] => ['[', ']']
  | .arr (x :: xs) => '[' :: dumpsV x ++ dumpsElems xs ++ [']']
  | .obj [] => ['{', '}']
  | .obj (kv :: kvs) => '{' :: dumpsKV kv ++ dumpsMembers kvs ++ ['}']

/-- The `", "`-separated tail elements of an array. -/
def dumpsElems : List Json → List Char
  | [] => []
  | x :: xs => ',' :: ' ' :: dumpsV x ++ dumpsElems xs

/-- One `"key": value` member. -/
def dumpsKV : String × Json → List Char
  | (k, v) => '"' :: escapeList k.data ++ '"' :: ':' :: ' ' :: dumpsV v

/-- The `", "`-separated tail members of an object. -/
def dumpsMembers : List (String × Json) → List Char
  | [] => []
  | kv :: kvs => ',' :: ' ' :: dumpsKV kv ++ dumpsMembers kvs

end

mutual

/-- Values in the image of the parser: an `int`-flagged number has decimal
exponent 0, and object keys are pairwise distinct at every level. -/
def wfJson : Json → Bool
  | .null => true
  | .bool _ => true
  | .num fl _ e => fl || decide (e = 0)
  | .str _ => true
  | .arr l => wfElems l
  | .obj l => wfMembers l

/-- All elements well-formed. -/
def wfElems : List Json → Bool
  | [] => true
  | x :: xs => wfJson x && wfElems xs

/-- All values well-formed and keys distinct. -/
def wfMembers : List (String × Json) → Bool
  | [] => true
  | kv :: kvs =>
    wfJson kv.2 && decide (kv.1 ∉ kvs.map Prod.fst) && wfMembers kvs

end

/-! ## Number-scan round trip -/

/-- The character after a serialized number must not extend the token. -/
def numSafe (rest : List Char) : Prop :=
  ∀ c, rest.head? = some c → isNumChar c = false

/-- Round-trip property of one value at sufficient fuel. -/
def RTP (v : Json) : Prop :=
  ∀ f rest, Json.size v ≤ f → numSafe rest →
    parseValueF f (dumpsV v ++ rest) = some (v, rest)

/-! ## Theorems -/

theorem surrogateCont_length {n : Nat} {r2 : List Char} {c : Char} {r' : List Char}
    (h : surrogateCont n r2 = some (c, r')) : r'.length ≤ r2.length := by
  unfold surrogateCont at h
  repeat' split at h
  all_goals first
    | exact Option.noConfusion h
    | (simp only [Option.some.injEq, Prod.mk.injEq] at h;
       obtain ⟨h1, h2⟩ := h; subst h2;
       (try simp only [List.length_cons]); omega)

theorem unescapeU_length {r1 : List Char} {c : Char} {r' : List Char}
    (h : unescapeU r1 = some (c, r')) : r'.length < r1.length := by
  unfold unescapeU at h
  repeat' split at h
  all_goals first
    | exact Option.noConfusion h
    | (simp only [Option.some.injEq, Prod.mk.injEq] at h;
       obtain ⟨h1, h2⟩ := h; subst h2;
       (try simp only [List.length_cons]); omega)
    | (have hsl := surrogateCont_length h;
       (try simp only [List.length_cons] at *); omega)

theorem unescape1_length {r : List Char} {c : Char} {r' : List Char}
    (h : unescape1 r = some (c, r')) : r'.length < r.length := by
  unfold unescape1 at h
  repeat' split at h
  all_goals first
    | exact Option.noConfusion h
    | (simp only [Option.some.injEq, Prod.mk.injEq] at h;
       obtain ⟨h1, h2⟩ := h; subst h2;
       (try simp only [List.length_cons]); omega)
    | (have hul := unescapeU_length h;
       (try simp only [List.length_cons] at *); omega)

theorem hasBraceSpan_imp_mem {cs : List Char} (h : hasBraceSpan cs = true) :
    '}' ∈ cs := by
  induction cs with
  | nil => simp [hasBraceSpan] at h
  | cons c cs ih =>
    unfold hasBraceSpan at h
    split at h
    · exact List.mem_cons_of_mem _ (by simpa using h)
    · exact List.mem_cons_of_mem _ (ih h)

theorem hasBraceSpan_mono {cs' cs : List Char} (h : cs'.Sublist cs)
    (hh : hasBraceSpan cs' = true) : hasBraceSpan cs = true := by
  induction h with
  | slnil => simp [hasBraceSpan] at hh
  | cons c _ ih =>
    have h2 := ih hh
    unfold hasBraceSpan
    split
    · exact decide_eq_true (hasBraceSpan_imp_mem h2)
    · exact h2
  | cons₂ c hsub ih =>
    unfold hasBraceSpan at hh ⊢
    split at hh <;> rename_i hc
    · rw [if_pos hc]
      exact decide_eq_true (hsub.mem (of_decide_eq_true hh))
    · rw [if_neg hc]
      exact ih hh

theorem extractSpan_eq_none_iff (cs : List Char) :
    extractSpan cs = none ↔ hasBraceSpan cs = false := by
  induction cs with
  | nil => simp [extractSpan, hasBraceSpan]
  | cons c cs ih =>
    by_cases hc : c = '{'
    · subst hc
      simp only [extractSpan, hasBraceSpan, List.dropWhile_cons, if_pos rfl]
      split <;> rename_i hmem
      · simp_all
      · simp_all
    · have hdw : (c :: cs).dropWhile (· ≠ '{') = cs.dropWhile (· ≠ '{') := by
        simp [List.dropWhile_cons, hc]
      simp only [extractSpan, hasBraceSpan, hdw, if_neg hc]
      exact ih

theorem delOccF_sublist (pat : List Char) (f : Nat) (cs : List Char) :
    (delOccF pat f cs).Sublist cs := by
  induction f generalizing cs with
  | zero => simp [delOccF]
  | succ f ih =>
    cases cs with
    | nil => simp [delOccF]
    | cons c cs =>
      simp only [delOccF]
      split
      · exact (ih _).trans (List.drop_sublist _ _)
      · exact (ih cs).cons₂ c

theorem delOcc_sublist (pat cs : List Char) : (delOcc pat cs).Sublist cs :=
  delOccF_sublist pat cs.length cs

theorem pyStrip_sublist (cs : List Char) : (pyStrip cs).Sublist cs := by
  unfold pyStrip dropEndWhile
  have h1 : (((cs.dropWhile isStripWs).reverse.dropWhile isStripWs).reverse).Sublist
      ((cs.dropWhile isStripWs).reverse.reverse) := (List.dropWhile_sublist _).reverse
  rw [List.reverse_reverse] at h1
  exact h1.trans (List.dropWhile_sublist _)

theorem cleanContent_sublist (cs : List Char) : (cleanContent cs).Sublist cs :=
  (pyStrip_sublist _).trans ((delOcc_sublist _ _).trans (delOcc_sublist _ _))

/-! ## Claim C5 -/

/-- **C5 counterexample.**  The claim says the two extraction-failure cases
produce distinguishable result values for the caller.  They do not: the
no-span input and the malformed-span input take the two distinct failure
branches, yet `clean_and_parse_json` returns the same value `None` for
both. -/
theorem C5_failures_same_result_counterexample :
    extractOutcome "Sorry, I cannot comply." = .noJsonFound ∧
    extractOutcome "\x7bnot valid json\x7d" =
      .malformedJson "\x7bnot valid json\x7d".data ∧
    clean_and_parse_json "Sorry, I cannot comply." =
      clean_and_parse_json "\x7bnot valid json\x7d" ∧
    clean_and_parse_json "Sorry, I cannot comply." = none :=
  ⟨rfl, rfl, rfl, rfl⟩

/-- **C5 (amended).**  The extractor distinguishes "no object found" from
"malformed object" only in its console/log diagnostics (the two distinct
failure branches of `extractOutcome`); the value returned to the caller is
the same `None` in both cases, so callers cannot tell them apart from the
result value. -/
theorem C5_failure_branches_both_return_none (raw : String) :
    clean_and_parse_json raw = none ↔
      extractOutcome raw = .noJsonFound ∨
        ∃ s, extractOutcome raw = .malformedJson s := by
  unfold clean_and_parse_json extractOutcome cleanParseChars
  cases h : extractOutcomeChars raw.data <;> simp

/-! ## Claim C9 -/

/-- **C9.**  For every query, if the search client call fails with an
exception `e`, `tavily_search` catches it at the call site and returns the
structured value `{"error": str(e)}`; modelling exceptions as the `Except`
error branch, no exception propagates out of `tavily_search`. -/
theorem C9_search_error_becomes_error_value
    (impl : TavilyRequest → Except String Json) (q e : String)
    (h : impl (tavilyRequest q) = .error e) :
    tavily_search impl q = Json.obj [("error", Json.str e)] := by
  simp [tavily_search, h]

theorem C9_search_error_becomes_error_value_witness :
    tavily_search (fun _ => .error "connection reset") "acme.com" =
      Json.obj [("error", Json.str "connection reset")] :=
  C9_search_error_becomes_error_value (fun _ => .error "connection reset")
    "acme.com" "connection reset" rfl

/-! ## Claim C2 -/

/-- **C2 (code bug).**  If stage 1 or stage 2 extraction fails, the run does
stop before stages 3 and 4 (the result does not depend on the later stage
outcomes), but contrary to the claim (and to the comment above the final
save) nothing at all is written to `combined_analysis.json`: the early
`return`s at lines 252 and 268 leave `main` before the line-319 save, so
`fileWrites` is empty. -/
theorem C2_stage12_failure_skips_save :
    (∀ s2 s3 s4 : StageCall,
      runMain { companyUrl := "u", stage1 := .returns "The site was unreachable.",
                stage2 := s2, stage3 := s3,
                sellingCompany := "Acme", stage4 := s4 } =
        { final := [], trace := [[]], fileWrites := [], caught := none }) ∧
    (∀ s3 s4 : StageCall,
      runMain { companyUrl := "u", stage1 := .returns "\x7b\"a\": 1\x7d",
                stage2 := .returns "not json", stage3 := s3,
                sellingCompany := "Acme", stage4 := s4 } =
        { final := [("company_info", Json.obj [("a", Json.num false 1 0)])],
          trace := [[], [("company_info", Json.obj [("a", Json.num false 1 0)])]],
          fileWrites := [], caught := none }) :=
  ⟨fun _ _ _ => rfl, fun _ _ => rfl⟩

/-! ## Claim C6 -/

/-- Stage-parse helper: a successful truthy parse. -/
theorem stageParsed_eq_some {raw : String} {v : Json}
    (hp : clean_and_parse_json raw = some v) (ht : pyTruthy v = true) :
    stageParsed raw = some v := by
  simp [stageParsed, hp, ht]

/-- Stage-parse helper: an extraction failure. -/
theorem stageParsed_eq_none {raw : String}
    (hp : clean_and_parse_json raw = none) : stageParsed raw = none := by
  simp [stageParsed, hp]

/-- **C6.**  The extractor is a total function (it never raises): on any
input without a `{...}` span (no `{` followed by a later `}`) it takes the
`NoJsonFound` branch, and on any input whose located span fails to parse it
takes the `MalformedJson` branch.  In particular (witness) the input
`"Sorry, I cannot comply."` yields `NoJsonFound`. -/
theorem C6_failure_branches_total (raw : String) :
    (hasBraceSpan raw.data = false → extractOutcome raw = .noJsonFound) ∧
    (∀ s, extractSpan (cleanContent raw.data) = some s → parseJson s = none →
      extractOutcome raw = .malformedJson s) := by
  constructor
  · intro h
    have hclean : hasBraceSpan (cleanContent raw.data) = false := by
      by_contra hc
      rw [Bool.not_eq_false] at hc
      rw [hasBraceSpan_mono (cleanContent_sublist raw.data) hc] at h
      exact Bool.noConfusion h
    have hnone : extractSpan (cleanContent raw.data) = none :=
      (extractSpan_eq_none_iff _).mpr hclean
    unfold extractOutcome extractOutcomeChars
    rw [hnone]
  · intro s hs hp
    simp only [extractOutcome, extractOutcomeChars, hs, hp]

theorem C6_failure_branches_total_witness :
    hasBraceSpan "Sorry, I cannot comply.".data = false ∧
    extractOutcome "Sorry, I cannot comply." = .noJsonFound :=
  ⟨rfl, (C6_failure_branches_total "Sorry, I cannot comply.").1 rfl⟩

/-! ## Claim C4 -/

/-- **C4.**  Any exception raised during any stage is caught by the
top-level handler of `main`, which then falls through to the unconditional
save: the caught message is recorded, the accumulated `combined_output` is
persisted, and `main` returns normally (never re-raises).  In particular,
if stage 1 succeeded and stage 2 raises, the persisted document contains
only the `company_info` key. -/
theorem C4_exceptions_caught_and_persisted :
    (∀ (env : Env) (m : String) (s : TryState), tryBody env = .exc m s →
      runMain env = { final := s.co, trace := s.trace,
                      fileWrites := s.writes ++ [s.co], caught := some m }) ∧
    (∀ (env : Env) (raw1 : String) (v1 : Json) (m : String),
      env.stage1 = .returns raw1 → stageParsed raw1 = some v1 →
      env.stage2 = .raises m →
      runMain env =
        { final := [("company_info", v1)], trace := [[], [("company_info", v1)]],
          fileWrites := [[("company_info", v1)]], caught := some m }) := by
  constructor
  · intro env m s h
    unfold runMain
    rw [h]
  · intro env raw1 v1 m h1 hp h2
    obtain ⟨url, s1, s2, s3, sc, s4⟩ := env
    simp only at h1 h2
    subst h1; subst h2
    simp [runMain, tryBody, hp]

theorem C4_exceptions_caught_and_persisted_witness :
    runMain { companyUrl := "u", stage1 := .returns "\x7b\"a\": 1\x7d",
              stage2 := .raises "boom", stage3 := .returns "x",
              sellingCompany := "Acme", stage4 := .returns "x" } =
      { final := [("company_info", Json.obj [("a", Json.num false 1 0)])],
        trace := [[], [("company_info", Json.obj [("a", Json.num false 1 0)])]],
        fileWrites := [[("company_info", Json.obj [("a", Json.num false 1 0)])]],
        caught := some "boom" } :=
  C4_exceptions_caught_and_persisted.2 _ "\x7b\"a\": 1\x7d" _ "boom" rfl rfl rfl

/-! ## Claim C3 -/

/-- **C3 counterexample.**  Stages 1 and 2 succeed, stage 3's extraction
fails, and stage 4's extraction also *succeeds* — but with the empty object
`{}`, which is falsy in Python; `if solutions:` therefore takes the failure
branch and `main` returns early.  Contrary to the claim, the persisted
document does not contain all five keys: nothing is persisted at all. -/
theorem C3_stage4_empty_object_counterexample :
    clean_and_parse_json "\x7b\x7d" = some (Json.obj []) ∧
    (runMain { companyUrl := "u", stage1 := .returns "\x7b\"a\": 1\x7d",
               stage2 := .returns "\x7b\"b\": 2\x7d", stage3 := .returns "no json",
               sellingCompany := "Acme", stage4 := .returns "\x7b\x7d" }).fileWrites
      = [] ∧
    (runMain { companyUrl := "u", stage1 := .returns "\x7b\"a\": 1\x7d",
               stage2 := .returns "\x7b\"b\": 2\x7d", stage3 := .returns "no json",
               sellingCompany := "Acme", stage4 := .returns "\x7b\x7d" }).final.map
        Prod.fst
      = ["company_info", "pain_points", "industry_challenges", "selling_company"] :=
  ⟨rfl, rfl, rfl⟩

/-- **C3 (amended).**  If stage 3's extraction fails while stages 1, 2 and 4
each succeed with a truthy (non-empty) object, the run still reaches and
executes stage 4, and the persisted document contains all five top-level
keys with `industry_challenges` equal to the literal placeholder
`{"error": "Failed to parse"}`. -/
theorem C3_stage3_failure_tolerated (env : Env)
    (raw1 raw2 raw3 raw4 : String) (v1 v2 v4 : Json)
    (h1 : env.stage1 = .returns raw1) (p1 : clean_and_parse_json raw1 = some v1)
    (t1 : pyTruthy v1 = true)
    (h2 : env.stage2 = .returns raw2) (p2 : clean_and_parse_json raw2 = some v2)
    (t2 : pyTruthy v2 = true)
    (h3 : env.stage3 = .returns raw3) (p3 : clean_and_parse_json raw3 = none)
    (h4 : env.stage4 = .returns raw4) (p4 : clean_and_parse_json raw4 = some v4)
    (t4 : pyTruthy v4 = true) :
    runMain env =
      { final := [("company_info", v1), ("pain_points", v2),
                  ("industry_challenges", challengesPlaceholder),
                  ("selling_company", Json.str env.sellingCompany),
                  ("solutions", v4)],
        trace := [[],
          [("company_info", v1)],
          [("company_info", v1), ("pain_points", v2)],
          [("company_info", v1), ("pain_points", v2),
           ("industry_challenges", challengesPlaceholder)],
          [("company_info", v1), ("pain_points", v2),
           ("industry_challenges", challengesPlaceholder),
           ("selling_company", Json.str env.sellingCompany)],
          [("company_info", v1), ("pain_points", v2),
           ("industry_challenges", challengesPlaceholder),
           ("selling_company", Json.str env.sellingCompany), ("solutions", v4)]],
        fileWrites :=
          [[("company_info", v1), ("pain_points", v2),
            ("industry_challenges", challengesPlaceholder),
            ("selling_company", Json.str env.sellingCompany), ("solutions", v4)],
           [("company_info", v1), ("pain_points", v2),
            ("industry_challenges", challengesPlaceholder),
            ("selling_company", Json.str env.sellingCompany), ("solutions", v4)]],
        caught := none } := by
  obtain ⟨url, s1, s2, s3, sc, s4⟩ := env
  simp only at h1 h2 h3 h4
  subst h1; subst h2; subst h3; subst h4
  simp [runMain, tryBody, stageParsed_eq_some p1 t1, stageParsed_eq_some p2 t2,
    stageParsed_eq_none p3, stageParsed_eq_some p4 t4]

theorem C3_stage3_failure_tolerated_witness :
    runMain { companyUrl := "u", stage1 := .returns "\x7b\"a\": 1\x7d",
              stage2 := .returns "\x7b\"b\": 2\x7d", stage3 := .returns "no json",
              sellingCompany := "Acme", stage4 := .returns "\x7b\"s\": 3\x7d" } =
      { final := [("company_info", Json.obj [("a", Json.num false 1 0)]),
                  ("pain_points", Json.obj [("b", Json.num false 2 0)]),
                  ("industry_challenges", challengesPlaceholder),
                  ("selling_company", Json.str "Acme"),
                  ("solutions", Json.obj [("s", Json.num false 3 0)])],
        trace := [[],
          [("company_info", Json.obj [("a", Json.num false 1 0)])],
          [("company_info", Json.obj [("a", Json.num false 1 0)]),
           ("pain_points", Json.obj [("b", Json.num false 2 0)])],
          [("company_info", Json.obj [("a", Json.num false 1 0)]),
           ("pain_points", Json.obj [("b", Json.num false 2 0)]),
           ("industry_challenges", challengesPlaceholder)],
          [("company_info", Json.obj [("a", Json.num false 1 0)]),
           ("pain_points", Json.obj [("b", Json.num false 2 0)]),
           ("industry_challenges", challengesPlaceholder),
           ("selling_company", Json.str "Acme")],
          [("company_info", Json.obj [("a", Json.num false 1 0)]),
           ("pain_points", Json.obj [("b", Json.num false 2 0)]),
           ("industry_challenges", challengesPlaceholder),
           ("selling_company", Json.str "Acme"),
           ("solutions", Json.obj [("s", Json.num false 3 0)])]],
        fileWrites :=
          [[("company_info", Json.obj [("a", Json.num false 1 0)]),
            ("pain_points", Json.obj [("b", Json.num false 2 0)]),
            ("industry_challenges", challengesPlaceholder),
            ("selling_company", Json.str "Acme"),
            ("solutions", Json.obj [("s", Json.num false 3 0)])],
           [("company_info", Json.obj [("a", Json.num false 1 0)]),
            ("pain_points", Json.obj [("b", Json.num false 2 0)]),
            ("industry_challenges", challengesPlaceholder),
            ("selling_company", Json.str "Acme"),
            ("solutions", Json.obj [("s", Json.num false 3 0)])]],
        caught := none } :=
  C3_stage3_failure_tolerated _ "\x7b\"a\": 1\x7d" "\x7b\"b\": 2\x7d" "no json"
    "\x7b\"s\": 3\x7d" _ _ _ rfl rfl rfl rfl rfl rfl rfl rfl rfl rfl rfl

/-! ## Claim C8 -/

/-- **C8.**  Throughout every run, the `combined_output` accumulator is
only ever extended: each successive value it takes is a prefix of the next,
so a key once set is never removed or rolled back, including on runs where
a later stage fails or raises. -/
theorem C8_combined_output_only_extended (env : Env) :
    List.Chain' (· <+: ·) (runMain env).trace := by
  obtain ⟨url, s1, s2, s3, sc, s4⟩ := env
  cases s1 with
  | raises m => simp [runMain, tryBody, List.Chain']
  | returns raw1 =>
    cases hp1 : stageParsed raw1 with
    | none => simp [runMain, tryBody, hp1, List.Chain']
    | some v1 =>
      cases s2 with
      | raises m =>
        simp [runMain, tryBody, hp1, List.chain'_cons, List.Chain']
      | returns raw2 =>
        cases hp2 : stageParsed raw2 with
        | none => simp [runMain, tryBody, hp1, hp2, List.chain'_cons, List.Chain']
        | some v2 =>
          cases s3 with
          | raises m =>
            simp [runMain, tryBody, hp1, hp2, List.chain'_cons, List.Chain']
          | returns raw3 =>
            cases s4 with
            | raises m =>
              simp [runMain, tryBody, hp1, hp2, List.chain'_cons, List.Chain']
            | returns raw4 =>
              cases hp4 : stageParsed raw4 with
              | none =>
                simp [runMain, tryBody, hp1, hp2, hp4, List.chain'_cons, List.Chain']
              | some v4 =>
                simp [runMain, tryBody, hp1, hp2, hp4, List.chain'_cons, List.Chain']

/-! ## Factoring `cleanContent` around a protected object -/

theorem delOccF_cons_pos {pat : List Char} {c : Char} {cs : List Char} {f : Nat}
    (h : pat.isPrefixOf (c :: cs) = true) :
    delOccF pat (f + 1) (c :: cs) = delOccF pat f ((c :: cs).drop pat.length) := by
  simp only [delOccF, h, if_true]

theorem delOccF_cons_neg {pat : List Char} {c : Char} {cs : List Char} {f : Nat}
    (h : pat.isPrefixOf (c :: cs) = false) :
    delOccF pat (f + 1) (c :: cs) = c :: delOccF pat f cs := by
  simp only [delOccF, h, Bool.false_eq_true, if_false]

theorem delOccF_copy_head {pat : List Char} (hpat : pat.head? = some '`')
    {c : Char} (hne : c ≠ '`') (f : Nat) (cs : List Char) :
    delOccF pat (f + 1) (c :: cs) = c :: delOccF pat f cs := by
  obtain ⟨ps, rfl⟩ : ∃ ps, pat = '`' :: ps := by
    cases pat with
    | nil => simp at hpat
    | cons p ps => simp at hpat; exact ⟨ps, by rw [hpat]⟩
  have hb : (('`' : Char) == c) = false := beq_eq_false_iff_ne.mpr (Ne.symm hne)
  simp [delOccF, List.isPrefixOf, hb]

theorem delOccF_skip_clean {pat : List Char} (hpat : pat.head? = some '`') :
    ∀ mid : List Char, '`' ∉ mid → ∀ f post, mid.length + post.length ≤ f →
      ∃ g, delOccF pat f (mid ++ post) = mid ++ delOccF pat g post ∧
        post.length ≤ g := by
  intro mid
  induction mid with
  | nil => exact fun _ f post h => ⟨f, rfl, by simpa using h⟩
  | cons c mid' ih =>
    intro hmid f post h
    have hc : c ≠ '`' := fun e => hmid (by rw [← e]; exact List.mem_cons_self _ _)
    cases f with
    | zero => simp at h
    | succ f =>
      rw [List.cons_append, delOccF_copy_head hpat hc]
      obtain ⟨g, hg, hgl⟩ :=
        ih (fun hm => hmid (List.mem_cons_of_mem _ hm)) f post
          (by simp only [List.length_cons] at h; omega)
      exact ⟨g, by rw [hg, List.cons_append], hgl⟩

theorem delOccF_around {pat : List Char} (hpat : pat.head? = some '`')
    (hpb : '{' ∉ pat) {obj : List Char} (hobj : '`' ∉ obj)
    (hhead : obj.head? = some '{') :
    ∀ f pre post, (pre ++ (obj ++ post)).length ≤ f →
      ∃ A B, delOccF pat f (pre ++ (obj ++ post)) = A ++ (obj ++ B) ∧
        A.Sublist pre ∧ B.Sublist post := by
  intro f
  induction f with
  | zero =>
    intro pre post h
    exfalso
    cases obj with
    | nil => simp at hhead
    | cons o ot => simp [List.length_append] at h
  | succ f ih =>
    intro pre post h
    cases pre with
    | nil =>
      obtain ⟨g, hg, _⟩ := delOccF_skip_clean hpat obj hobj (f + 1) post (by simpa using h)
      exact ⟨[], delOccF pat g post, by simpa using hg, List.Sublist.refl _,
        delOccF_sublist _ _ _⟩
    | cons c pre' =>
      have hplen : 1 ≤ pat.length := by
        cases pat with
        | nil => simp at hpat
        | cons p ps => simp
      by_cases hpre : pat.isPrefixOf (c :: pre' ++ (obj ++ post))
      · have hpfx : pat <+: (c :: pre' ++ (obj ++ post)) :=
          List.isPrefixOf_iff_prefix.mp hpre
        have htake : (c :: pre' ++ (obj ++ post)).take pat.length = pat :=
          (List.prefix_iff_eq_take.mp hpfx).symm
        have hple : pat.length ≤ (c :: pre').length := by
          by_contra hgt
          push_neg at hgt
          have hidx : (c :: pre' ++ (obj ++ post))[(c :: pre').length]? = some '{' := by
            rw [List.getElem?_append_right (by omega)]
            simp only [Nat.sub_self]
            cases obj with
            | nil => simp at hhead
            | cons o ot =>
              simp only [List.head?_cons, Option.some.injEq] at hhead
              simp [hhead]
          have h1 : pat[(c :: pre').length]? = some '{' := by
            conv_lhs => rw [← htake]
            rw [List.getElem?_take, if_pos hgt]
            exact hidx
          exact hpb (List.getElem?_mem h1)
        obtain ⟨A, B, hAB, hAs, hBs⟩ :=
          ih ((c :: pre').drop pat.length) post
            (by simp only [List.length_append, List.length_drop,
                  List.length_cons] at h ⊢; omega)
        refine ⟨A, B, ?_, hAs.trans (List.drop_sublist _ _), hBs⟩
        have hdrop : (c :: pre' ++ (obj ++ post)).drop pat.length =
            (c :: pre').drop pat.length ++ (obj ++ post) :=
          List.drop_append_of_le_length hple
        have hpre2 : pat.isPrefixOf (c :: (pre' ++ (obj ++ post))) = true := by
          rw [← List.cons_append]; exact hpre
        have hdrop2 : (c :: (pre' ++ (obj ++ post))).drop pat.length =
            (c :: pre').drop pat.length ++ (obj ++ post) := by
          rw [← List.cons_append]; exact hdrop
        rw [List.cons_append, delOccF_cons_pos hpre2, hdrop2, hAB]
      · obtain ⟨A, B, hAB, hAs, hBs⟩ := ih pre' post
          (by simp only [List.length_cons, List.length_append] at h ⊢; omega)
        refine ⟨c :: A, B, ?_, hAs.cons₂ c, hBs⟩
        have hpre2 : pat.isPrefixOf (c :: (pre' ++ (obj ++ post))) = false := by
          rw [← List.cons_append]
          exact (Bool.not_eq_true _) ▸ hpre
        rw [List.cons_append, delOccF_cons_neg hpre2, hAB, List.cons_append]

theorem delOcc_around {pat : List Char} (hpat : pat.head? = some '`')
    (hpb : '{' ∉ pat) {obj : List Char} (hobj : '`' ∉ obj)
    (hhead : obj.head? = some '{') (pre post : List Char) :
    ∃ A B, delOcc pat (pre ++ (obj ++ post)) = A ++ (obj ++ B) ∧
      A.Sublist pre ∧ B.Sublist post :=
  delOccF_around hpat hpb hobj hhead _ pre post le_rfl

theorem dropWhile_append_of_all {p : Char → Bool} {A X : List Char}
    (hA : ∀ a ∈ A, p a = true) : (A ++ X).dropWhile p = X.dropWhile p := by
  induction A with
  | nil => simp
  | cons a A' ih =>
    rw [List.cons_append, List.dropWhile_cons, if_pos (hA a (List.mem_cons_self _ _))]
    exact ih fun x hx => hA x (List.mem_cons_of_mem _ hx)

theorem dropWhile_around {p : Char → Bool} {obj : List Char} {o : Char}
    (hhead : obj.head? = some o) (ho : p o = false) :
    ∀ A B : List Char, ∃ A2, A2.Sublist A ∧
      (A ++ (obj ++ B)).dropWhile p = A2 ++ (obj ++ B) := by
  intro A B
  induction A with
  | nil =>
    refine ⟨[], List.Sublist.refl _, ?_⟩
    cases obj with
    | nil => simp at hhead
    | cons o' ot =>
      simp only [List.head?_cons, Option.some.injEq] at hhead
      subst hhead
      simp [List.dropWhile_cons, ho]
  | cons a A' ih =>
    by_cases hpa : p a = true
    · obtain ⟨A2, hs, he⟩ := ih
      exact ⟨A2, hs.cons a, by simp [List.dropWhile_cons, hpa, he]⟩
    · exact ⟨a :: A', List.Sublist.refl _,
        by simp [List.dropWhile_cons, Bool.not_eq_true _ ▸ hpa]⟩

theorem pyStrip_around {obj : List Char}
    (hhead : obj.head? = some '{') (hlast : obj.getLast? = some '}') :
    ∀ A B : List Char, ∃ A2 B2, A2.Sublist A ∧ B2.Sublist B ∧
      pyStrip (A ++ (obj ++ B)) = A2 ++ (obj ++ B2) := by
  intro A B
  unfold pyStrip dropEndWhile
  obtain ⟨A2, hA2, hL⟩ := @dropWhile_around isStripWs _ _ hhead (by decide) A B
  rw [hL]
  have hrev : (A2 ++ (obj ++ B)).reverse = B.reverse ++ (obj.reverse ++ A2.reverse) := by
    simp
  rw [hrev]
  have hrhead : obj.reverse.head? = some '}' := by
    rw [List.head?_reverse]; exact hlast
  obtain ⟨B2r, hB2r, hR⟩ :=
    @dropWhile_around isStripWs _ _ hrhead (by decide) B.reverse A2.reverse
  rw [hR]
  refine ⟨A2, B2r.reverse, hA2, ?_, ?_⟩
  · have h := hB2r.reverse
    rwa [List.reverse_reverse] at h
  · simp

theorem extractSpan_around {obj A B : List Char}
    (hhead : obj.head? = some '{') (hlast : obj.getLast? = some '}')
    (hA : '{' ∉ A) (hB : '}' ∉ B) :
    extractSpan (A ++ (obj ++ B)) = some obj := by
  obtain ⟨ot, rfl⟩ : ∃ ot, obj = '{' :: ot := by
    cases obj with
    | nil => simp at hhead
    | cons o ot =>
      simp only [List.head?_cons, Option.some.injEq] at hhead
      exact ⟨ot, by rw [hhead]⟩
  have hot : ot ≠ [] := by
    intro hnil
    subst hnil
    simp only [List.getLast?_singleton, Option.some.injEq] at hlast
    exact absurd hlast (by decide)
  have hotlast : ot.getLast? = some '}' := by
    cases ot with
    | nil => exact absurd rfl hot
    | cons x xs =>
      rw [List.getLast?_cons_cons] at hlast
      exact hlast
  unfold extractSpan
  have hdA : (A ++ ('{' :: ot ++ B)).dropWhile (· ≠ '{') = '{' :: (ot ++ B) := by
    rw [dropWhile_append_of_all (fun a ha => decide_eq_true (by
      intro he; exact hA (he ▸ ha)))]
    simp [List.dropWhile_cons]
  rw [hdA]
  show (if '}' ∈ (ot ++ B) then
      some ('{' :: ((ot ++ B).reverse.dropWhile (· ≠ '}')).reverse) else none) =
    some ('{' :: ot)
  have hmem : ('}' : Char) ∈ ot ++ B :=
    List.mem_append_left _ (List.mem_of_mem_getLast? hotlast)
  rw [if_pos hmem]
  have hrevdrop : ((ot ++ B).reverse).dropWhile (· ≠ '}') = ot.reverse := by
    rw [List.reverse_append]
    rw [dropWhile_append_of_all (fun a ha => decide_eq_true (by
      intro he
      exact hB (he ▸ (List.mem_reverse.mp ha))))]
    obtain ⟨x, xs, hxx⟩ : ∃ x xs, ot.reverse = x :: xs := by
      cases hr : ot.reverse with
      | nil => exact absurd (by simpa using hr) hot
      | cons x xs => exact ⟨x, xs, rfl⟩
    have hx : x = '}' := by
      have := hotlast
      rw [← List.head?_reverse, hxx] at this
      simpa using this
    rw [hxx, hx]
    simp [List.dropWhile_cons]
  rw [hrevdrop, List.reverse_reverse]

/-! ## Claim C1 -/

/-- **C1 counterexample.**  The input consists of exactly one well-formed
JSON object and nothing else (no prose at all), yet the extractor does not
return that object unchanged: `str.replace` deletes the ``` characters
inside the object's string value before the span is parsed, so the value
comes back altered. -/
theorem C1_backticks_inside_object_counterexample :
    parseJson "\x7b\"a\": \"```\"\x7d".data = some (Json.obj [("a", Json.str "```")]) ∧
    clean_and_parse_json "\x7b\"a\": \"```\"\x7d" = some (Json.obj [("a", Json.str "")]) ∧
    Json.obj [("a", Json.str "")] ≠ Json.obj [("a", Json.str "```")] :=
  ⟨rfl, rfl, by simp⟩

/-- **C1 (amended).**  For every raw text that is exactly one well-formed
JSON object — whose own text contains no backtick characters — optionally
wrapped in fenced code-block markers and/or preceded/followed by prose with
no brace characters, the extractor returns that object unchanged (the
fence markers count as part of the surrounding prose). -/
theorem C1_single_object_extracted (pre obj post : List Char) (v : Json)
    (hpre1 : '{' ∉ pre) (hpre2 : '}' ∉ pre)
    (hpost1 : '{' ∉ post) (hpost2 : '}' ∉ post)
    (hobj : '`' ∉ obj)
    (hhead : obj.head? = some '{') (hlast : obj.getLast? = some '}')
    (hparse : parseJson obj = some v) :
    cleanParseChars (pre ++ (obj ++ post)) = some v ∧
    extractOutcomeChars (pre ++ (obj ++ post)) = .parsed v := by
  have hclean : ∃ A B, cleanContent (pre ++ (obj ++ post)) = A ++ (obj ++ B) ∧
      A.Sublist pre ∧ B.Sublist post := by
    unfold cleanContent
    obtain ⟨A1, B1, h1, hA1, hB1⟩ :=
      @delOcc_around ticksJson (by decide) (by decide) _ hobj hhead pre post
    rw [h1]
    obtain ⟨A2, B2, h2, hA2, hB2⟩ :=
      @delOcc_around ticks3 (by decide) (by decide) _ hobj hhead A1 B1
    rw [h2]
    obtain ⟨A3, B3, hA3, hB3, h3⟩ := pyStrip_around hhead hlast A2 B2
    rw [h3]
    exact ⟨A3, B3, rfl, hA3.trans (hA2.trans hA1), hB3.trans (hB2.trans hB1)⟩
  obtain ⟨A, B, hc, hAs, hBs⟩ := hclean
  have hspan : extractSpan (cleanContent (pre ++ (obj ++ post))) = some obj := by
    rw [hc]
    exact extractSpan_around hhead hlast
      (fun hm => hpre1 (List.Sublist.mem hm hAs))
      (fun hm => hpost2 (List.Sublist.mem hm hBs))
  have houtcome : extractOutcomeChars (pre ++ (obj ++ post)) = .parsed v := by
    simp only [extractOutcomeChars, hspan, hparse]
  exact ⟨by simp only [cleanParseChars, houtcome], houtcome⟩

theorem C1_single_object_extracted_witness :
    clean_and_parse_json "Here is the data:\n```json\n\x7b\"a\": 1\x7d\n```\nThanks" =
      some (Json.obj [("a", Json.num false 1 0)]) := by
  have h := (C1_single_object_extracted "Here is the data:\n```json\n".data
    "\x7b\"a\": 1\x7d".data "\n```\nThanks".data
    (Json.obj [("a", Json.num false 1 0)])
    (by decide) (by decide) (by decide) (by decide) (by decide)
    (by decide) (by decide) rfl).1
  exact h

/-! ## Decimal digit lemmas -/

theorem digitChar_facts : ∀ d : Nat, d < 10 →
    (Nat.digitChar d).toNat = d + 48 ∧ (Nat.digitChar d).isDigit = true ∧
      (d ≠ 0 → Nat.digitChar d ≠ '0') ∧ Nat.digitChar d ≠ '-' ∧
      Nat.digitChar d ≠ '.' ∧ isNumChar (Nat.digitChar d) = true := by
  decide

theorem natCharsAux_eq : ∀ f n : Nat, n ≤ f →
    natCharsAux f n = (Nat.digits 10 n).map Nat.digitChar := by
  intro f
  induction f with
  | zero =>
    intro n h
    interval_cases n
    simp [natCharsAux]
  | succ f ih =>
    intro n h
    cases n with
    | zero => simp [natCharsAux]
    | succ n =>
      rw [natCharsAux, ih ((n + 1) / 10) (by
        have := Nat.div_lt_self (Nat.succ_pos n) (by norm_num : 1 < 10)
        omega)]
      rw [Nat.digits_def' (by norm_num : 1 < 10) (Nat.succ_pos n)]
      · simp
      · omega

theorem natToChars_eq (n : Nat) (hn : n ≠ 0) :
    natToChars n = ((Nat.digits 10 n).map Nat.digitChar).reverse := by
  simp [natToChars, hn, natCharsAux_eq n n le_rfl]

theorem foldl_digits (L : List Nat) (hL : ∀ d ∈ L, d < 10) : ∀ acc : Nat,
    List.foldl (fun a c => 10 * a + (c.toNat - 48)) acc
      ((L.map Nat.digitChar).reverse) = acc * 10 ^ L.length + Nat.ofDigits 10 L := by
  induction L with
  | nil => intro acc; simp
  | cons d L' ih =>
    intro acc
    have hd := (digitChar_facts d (hL d (List.mem_cons_self _ _))).1
    rw [List.map_cons, List.reverse_cons, List.foldl_append]
    rw [ih (fun x hx => hL x (List.mem_cons_of_mem _ hx))]
    simp only [List.foldl_cons, List.foldl_nil, hd, Nat.ofDigits_cons, List.length_cons]
    have : d + 48 - 48 = d := by omega
    rw [this]
    ring

theorem digitsVal_natToChars (n : Nat) : digitsVal (natToChars n) = n := by
  by_cases hn : n = 0
  · subst hn; decide
  · rw [natToChars_eq n hn]
    unfold digitsVal
    rw [foldl_digits _ (fun d hd => Nat.digits_lt_base (by norm_num) hd) 0]
    simp [Nat.ofDigits_digits]

theorem natToChars_ne_nil (n : Nat) : natToChars n ≠ [] := by
  by_cases hn : n = 0
  · subst hn; decide
  · rw [natToChars_eq n hn]
    simp [Nat.digits_ne_nil_iff_ne_zero, hn]

theorem natToChars_digits (n : Nat) : ∀ c ∈ natToChars n, c.isDigit = true := by
  by_cases hn : n = 0
  · subst hn; decide
  · rw [natToChars_eq n hn]
    intro c hc
    rw [List.mem_reverse] at hc
    obtain ⟨d, hd, rfl⟩ := List.mem_map.mp hc
    exact (digitChar_facts d (Nat.digits_lt_base (by norm_num) hd)).2.1

theorem natToChars_head_ne_zero (n : Nat) (h : 1 < (natToChars n).length) :
    (natToChars n).head? ≠ some '0' := by
  by_cases hn : n = 0
  · subst hn; simp [natToChars] at h
  · rw [natToChars_eq n hn]
    have hnil : Nat.digits 10 n ≠ [] := Nat.digits_ne_nil_iff_ne_zero.mpr hn
    rw [List.head?_reverse, List.getLast?_map, List.getLast?_eq_getLast _ hnil]
    have hne := Nat.getLast_digit_ne_zero 10 hn
    have hlt : (Nat.digits 10 n).getLast hnil < 10 :=
      Nat.digits_lt_base (by norm_num) (List.getLast_mem _)
    intro hc
    simp only [Option.map_some', Option.some.injEq] at hc
    exact (digitChar_facts _ hlt).2.2.1 hne hc

theorem takeWhile_eq_self_of_all {p : Char → Bool} {l : List Char}
    (h : ∀ c ∈ l, p c = true) : l.takeWhile p = l := by
  induction l with
  | nil => rfl
  | cons c cs ih =>
    rw [List.takeWhile_cons, if_pos (h c (List.mem_cons_self _ _))]
    rw [ih fun x hx => h x (List.mem_cons_of_mem _ hx)]

theorem takeWhile_append_of_all {p : Char → Bool} {A X : List Char}
    (h : ∀ c ∈ A, p c = true) : (A ++ X).takeWhile p = A ++ X.takeWhile p := by
  induction A with
  | nil => rfl
  | cons a A' ih =>
    rw [List.cons_append, List.takeWhile_cons, if_pos (h a (List.mem_cons_self _ _)),
      ih fun x hx => h x (List.mem_cons_of_mem _ hx), List.cons_append]

theorem natToChars_head_not_dash (n : Nat) :
    ¬ (natToChars n).head? = some '-' := by
  intro hc
  have hmem : '-' ∈ natToChars n := by
    cases hx : natToChars n with
    | nil => exact absurd hx (natToChars_ne_nil _)
    | cons y ys =>
      rw [hx] at hc
      simp only [List.head?_cons, Option.some.injEq] at hc
      rw [← hc]
      exact List.mem_cons_self _ _
  have := natToChars_digits n '-' hmem
  exact absurd this (by decide)

theorem natToChars_head_not_plus (n : Nat) :
    ¬ (natToChars n).head? = some '+' := by
  intro hc
  have hmem : '+' ∈ natToChars n := by
    cases hx : natToChars n with
    | nil => exact absurd hx (natToChars_ne_nil _)
    | cons y ys =>
      rw [hx] at hc
      simp only [List.head?_cons, Option.some.injEq] at hc
      rw [← hc]
      exact List.mem_cons_self _ _
  have := natToChars_digits n '+' hmem
  exact absurd this (by decide)

theorem numFromToken_nat (D : List Char) (hdig : ∀ c ∈ D, c.isDigit = true)
    (hne : D ≠ []) (hnz : ¬ (1 < D.length ∧ D.head? = some '0'))
    (hdash : ¬ D.head? = some '-') (n : Nat) (hval : digitsVal D = n) :
    numFromToken D = some (.num false (n : Int) 0) := by
  rw [numFromToken]
  simp only [if_neg hdash, takeWhile_eq_self_of_all hdig, List.drop_length,
    if_neg hne, if_neg hnz, List.head?_nil]
  simp [hval]
  exact fun hc => absurd hc hdash

theorem numFromToken_negNat (D : List Char) (hdig : ∀ c ∈ D, c.isDigit = true)
    (hne : D ≠ []) (hnz : ¬ (1 < D.length ∧ D.head? = some '0'))
    (n : Nat) (hval : digitsVal D = n) :
    numFromToken ('-' :: D) = some (.num false (-(n : Int)) 0) := by
  rw [numFromToken]
  simp [takeWhile_eq_self_of_all hdig, hne, hnz, hval]

theorem numFromToken_int (m : Int) :
    numFromToken (intToChars m) = some (.num false m 0) := by
  by_cases hm : m < 0
  · rw [intToChars, if_pos hm]
    rw [numFromToken_negNat _ (natToChars_digits _) (natToChars_ne_nil _)
      (by push_neg; exact fun hl => natToChars_head_ne_zero _ hl) _
      (digitsVal_natToChars _)]
    congr 2
    omega
  · rw [intToChars, if_neg hm]
    rw [numFromToken_nat _ (natToChars_digits _) (natToChars_ne_nil _)
      (by push_neg; exact fun hl => natToChars_head_ne_zero _ hl)
      (natToChars_head_not_dash _) _ (digitsVal_natToChars _)]
    congr 2
    omega

theorem isDigit_e_false : Char.isDigit 'e' = false := rfl

theorem numFromToken_expCore (D : List Char) (hdig : ∀ c ∈ D, c.isDigit = true)
    (hne : D ≠ []) (hnz : ¬ (1 < D.length ∧ D.head? = some '0'))
    (hdash : ¬ D.head? = some '-') (n : Nat) (hval : digitsVal D = n) (e : Int) :
    numFromToken (D ++ 'e' :: intToChars e) = some (.num true (n : Int) e) := by
  have htw : ∀ X, (D ++ 'e' :: X).takeWhile Char.isDigit = D := fun X => by
    rw [takeWhile_append_of_all hdig]
    simp [List.takeWhile_cons]
  have hdr : ∀ X, (D ++ 'e' :: X).drop D.length = 'e' :: X := fun X => by
    rw [List.drop_append_of_le_length le_rfl]
    simp
  have hidx : ∀ X : List Char, (D ++ 'e' :: X)[D.length]? = some 'e' := fun X => by
    rw [List.getElem?_append_right le_rfl]
    simp
  rw [numFromToken]
  by_cases he : e < 0
  · have hEP : intToChars e = '-' :: natToChars e.natAbs := by
      rw [intToChars, if_pos he]
    simp [htw, hdr, hidx, hne, hnz, hdash, hEP,
      takeWhile_eq_self_of_all (natToChars_digits _),
      natToChars_ne_nil, hval, digitsVal_natToChars]
    rw [abs_of_neg he, neg_neg]
  · have hEP : intToChars e = natToChars e.natAbs := by
      rw [intToChars, if_neg he]
    simp [htw, hdr, hidx, hne, hnz, hdash, hEP,
      takeWhile_eq_self_of_all (natToChars_digits _),
      natToChars_ne_nil, hval, digitsVal_natToChars, natToChars_head_not_dash,
      natToChars_head_not_plus, exists_prop]
    omega

theorem numFromToken_expCoreNeg (D : List Char) (hdig : ∀ c ∈ D, c.isDigit = true)
    (hne : D ≠ []) (hnz : ¬ (1 < D.length ∧ D.head? = some '0'))
    (n : Nat) (hval : digitsVal D = n) (e : Int) :
    numFromToken ('-' :: (D ++ 'e' :: intToChars e)) =
      some (.num true (-(n : Int)) e) := by
  have htw : ∀ X, (D ++ 'e' :: X).takeWhile Char.isDigit = D := fun X => by
    rw [takeWhile_append_of_all hdig]
    simp [List.takeWhile_cons]
  have hdr : ∀ X, (D ++ 'e' :: X).drop D.length = 'e' :: X := fun X => by
    rw [List.drop_append_of_le_length le_rfl]
    simp
  have hidx : ∀ X : List Char, (D ++ 'e' :: X)[D.length]? = some 'e' := fun X => by
    rw [List.getElem?_append_right le_rfl]
    simp
  rw [numFromToken]
  by_cases he : e < 0
  · have hEP : intToChars e = '-' :: natToChars e.natAbs := by
      rw [intToChars, if_pos he]
    simp [htw, hdr, hidx, hne, hnz, hEP,
      takeWhile_eq_self_of_all (natToChars_digits _),
      natToChars_ne_nil, hval, digitsVal_natToChars]
    rw [abs_of_neg he, neg_neg]
  · have hEP : intToChars e = natToChars e.natAbs := by
      rw [intToChars, if_neg he]
    simp [htw, hdr, hidx, hne, hnz, hEP,
      takeWhile_eq_self_of_all (natToChars_digits _),
      natToChars_ne_nil, hval, digitsVal_natToChars, natToChars_head_not_dash,
      natToChars_head_not_plus, exists_prop]
    omega

theorem numFromToken_float (m e : Int) :
    numFromToken (intToChars m ++ 'e' :: intToChars e) = some (.num true m e) := by
  by_cases hm : m < 0
  · rw [intToChars, if_pos hm, List.cons_append]
    rw [numFromToken_expCoreNeg _ (natToChars_digits _) (natToChars_ne_nil _)
      (by push_neg; exact fun hl => natToChars_head_ne_zero _ hl) _
      (digitsVal_natToChars _) e]
    congr 2
    omega
  · rw [intToChars, if_neg hm]
    rw [numFromToken_expCore _ (natToChars_digits _) (natToChars_ne_nil _)
      (by push_neg; exact fun hl => natToChars_head_ne_zero _ hl)
      (natToChars_head_not_dash _) _ (digitsVal_natToChars _) e]
    congr 2
    omega

theorem isNumChar_of_isDigit {c : Char} (h : c.isDigit = true) :
    isNumChar c = true := by
  rw [isNumChar, h]
  rfl

theorem intToChars_numChars (m : Int) : ∀ c ∈ intToChars m, isNumChar c = true := by
  intro c hc
  rw [intToChars] at hc
  by_cases hm : m < 0
  · rw [if_pos hm] at hc
    rcases List.mem_cons.mp hc with h | h
    · subst h; decide
    · exact isNumChar_of_isDigit (natToChars_digits _ _ h)
  · rw [if_neg hm] at hc
    exact isNumChar_of_isDigit (natToChars_digits _ _ hc)

theorem takeWhile_numSafe {rest : List Char} (h : numSafe rest) :
    rest.takeWhile isNumChar = [] := by
  cases rest with
  | nil => rfl
  | cons c cs => rw [List.takeWhile_cons, if_neg (by simp [h c rfl])]

theorem dropWhile_numSafe {rest : List Char} (h : numSafe rest) :
    rest.dropWhile isNumChar = rest := by
  cases rest with
  | nil => rfl
  | cons c cs => rw [List.dropWhile_cons, if_neg (by simp [h c rfl])]

theorem parseNumber_rt {tok : List Char} {j : Json}
    (htok : ∀ c ∈ tok, isNumChar c = true) (hj : numFromToken tok = some j)
    {rest : List Char} (hsafe : numSafe rest) :
    parseNumber (tok ++ rest) = some (j, rest) := by
  rw [parseNumber, takeWhile_append_of_all htok, takeWhile_numSafe hsafe,
    List.append_nil, hj]
  have : (tok ++ rest).dropWhile isNumChar = rest := by
    rw [dropWhile_append_of_all htok, dropWhile_numSafe hsafe]
  rw [this]

/-! ## String-escape round trip -/

theorem hexVal_digitChar : ∀ d : Nat, d < 16 →
    hexVal? (Nat.digitChar d) = some d := by
  decide

theorem unescapeU_hex (n : Nat) (hn : n < 0x10000)
    (hs : ¬ (0xD800 ≤ n ∧ n < 0xDC00)) (tail : List Char) :
    unescapeU (hex4 n ++ tail) = some (mkChar n, tail) := by
  have h1 : n / 4096 % 16 < 16 := Nat.mod_lt _ (by norm_num)
  have h2 : n / 256 % 16 < 16 := Nat.mod_lt _ (by norm_num)
  have h3 : n / 16 % 16 < 16 := Nat.mod_lt _ (by norm_num)
  have h4 : n % 16 < 16 := Nat.mod_lt _ (by norm_num)
  rw [hex4]
  simp only [unescapeU, List.cons_append, List.nil_append,
    hexVal_digitChar _ h1, hexVal_digitChar _ h2, hexVal_digitChar _ h3,
    hexVal_digitChar _ h4]
  rw [if_neg (by omega)]
  have key : 4096 * (n / 4096 % 16) + 256 * (n / 256 % 16) + 16 * (n / 16 % 16) +
      n % 16 = n := by
    have h4096 : n / 4096 % 16 = n / 4096 := Nat.mod_eq_of_lt (by omega)
    have b1 : n / 256 % 16 = n % 4096 / 256 := by omega
    have b2 : n / 16 % 16 = n % 256 / 16 := by omega
    rw [h4096, b1, b2]
    omega
  rw [key]

theorem unescapeU_pair (hi lo : Nat) (hhi1 : 0xD800 ≤ hi) (hhi2 : hi < 0xDC00)
    (hlo1 : 0xDC00 ≤ lo) (hlo2 : lo < 0xE000) (tail : List Char) :
    unescapeU (hex4 hi ++ ('\\' :: 'u' :: hex4 lo ++ tail)) =
      some (mkChar (0x10000 + (hi - 0xD800) * 0x400 + (lo - 0xDC00)), tail) := by
  have keyrec : ∀ q : Nat, q < 65536 →
      4096 * (q / 4096 % 16) + 256 * (q / 256 % 16) + 16 * (q / 16 % 16) +
        q % 16 = q := by
    intro q hq
    have h4096 : q / 4096 % 16 = q / 4096 := Nat.mod_eq_of_lt (by omega)
    have b1 : q / 256 % 16 = q % 4096 / 256 := by omega
    have b2 : q / 16 % 16 = q % 256 / 16 := by omega
    rw [h4096, b1, b2]
    omega
  have h1 : hi / 4096 % 16 < 16 := Nat.mod_lt _ (by norm_num)
  have h2 : hi / 256 % 16 < 16 := Nat.mod_lt _ (by norm_num)
  have h3 : hi / 16 % 16 < 16 := Nat.mod_lt _ (by norm_num)
  have h4 : hi % 16 < 16 := Nat.mod_lt _ (by norm_num)
  have k1 : lo / 4096 % 16 < 16 := Nat.mod_lt _ (by norm_num)
  have k2 : lo / 256 % 16 < 16 := Nat.mod_lt _ (by norm_num)
  have k3 : lo / 16 % 16 < 16 := Nat.mod_lt _ (by norm_num)
  have k4 : lo % 16 < 16 := Nat.mod_lt _ (by norm_num)
  rw [hex4, hex4]
  simp only [unescapeU, surrogateCont, List.cons_append, List.nil_append,
    hexVal_digitChar _ h1, hexVal_digitChar _ h2, hexVal_digitChar _ h3,
    hexVal_digitChar _ h4, hexVal_digitChar _ k1, hexVal_digitChar _ k2,
    hexVal_digitChar _ k3, hexVal_digitChar _ k4]
  rw [keyrec hi (by omega), keyrec lo (by omega)]
  rw [if_pos (by omega), if_pos ⟨trivial, trivial⟩, if_pos (by omega)]

theorem unescapeU_surrogates (n : Nat) (hn1 : 0x10000 ≤ n) (hn2 : n < 0x110000)
    (tail : List Char) :
    unescapeU (hex4 (0xD800 + (n - 0x10000) / 0x400) ++
        ('\\' :: 'u' :: hex4 (0xDC00 + (n - 0x10000) % 0x400) ++ tail)) =
      some (mkChar n, tail) := by
  rw [unescapeU_pair _ _ (by omega) (by omega) (by omega)
    (by have := Nat.mod_lt (n - 0x10000) (show 0 < 1024 by norm_num); omega) tail]
  have harg : 65536 + (55296 + (n - 65536) / 1024 - 55296) * 1024 +
      (56320 + (n - 65536) % 1024 - 56320) = n := by omega
  rw [harg]

theorem char_valid_range (c : Char) :
    c.toNat < 0xd800 ∨ (0xdfff < c.toNat ∧ c.toNat < 0x110000) := c.valid

theorem unescape1_u (X : List Char) : unescape1 ('u' :: X) = unescapeU X := by
  simp [unescape1]

theorem parseStringBodyF_rt : ∀ (s : List Char) (f : Nat), s.length + 1 ≤ f →
    ∀ rest, parseStringBodyF f (escapeList s ++ '"' :: rest) = some (s, rest) := by
  intro s
  induction s with
  | nil =>
    intro f hf rest
    obtain ⟨f', rfl⟩ : ∃ f', f = f' + 1 := ⟨f - 1, by omega⟩
    simp [escapeList, parseStringBodyF]
  | cons c s' ih =>
    intro f hf rest
    obtain ⟨f', rfl⟩ : ∃ f', f = f' + 1 := ⟨f - 1, by omega⟩
    have hih := ih f' (by simp only [List.length_cons] at hf; omega) rest
    rw [escapeList, List.append_assoc]
    by_cases h1 : c = '"'
    · subst h1
      simp [escapeChar, parseStringBodyF, unescape1, hih]
    · by_cases h2 : c = '\\'
      · subst h2
        simp [escapeChar, parseStringBodyF, unescape1, hih]
      · by_cases h3 : c = '\n'
        · subst h3
          simp [escapeChar, parseStringBodyF, unescape1, hih]
        · by_cases h4 : c = '\r'
          · subst h4
            simp [escapeChar, parseStringBodyF, unescape1, hih]
          · by_cases h5 : c = '\t'
            · subst h5
              simp [escapeChar, parseStringBodyF, unescape1, hih]
            · by_cases h6 : c = '\x08'
              · subst h6
                simp [escapeChar, parseStringBodyF, unescape1, hih]
              · by_cases h7 : c = '\x0c'
                · subst h7
                  simp [escapeChar, parseStringBodyF, unescape1, hih]
                · by_cases hp : 0x20 ≤ c.toNat ∧ c.toNat ≤ 0x7E
                  · have he : escapeChar c = [c] := by
                      rw [escapeChar, if_neg h1, if_neg h2, if_neg h3, if_neg h4,
                        if_neg h5, if_neg h6, if_neg h7, if_pos hp]
                    rw [he, List.cons_append, List.nil_append]
                    rw [parseStringBodyF]
                    rw [if_neg h1, if_neg h2, if_neg (by omega : ¬ c.toNat < 32)]
                    rw [hih]
                  · by_cases hb : c.toNat < 0x10000
                    · have he : escapeChar c = '\\' :: 'u' :: hex4 c.toNat := by
                        rw [escapeChar, if_neg h1, if_neg h2, if_neg h3, if_neg h4,
                          if_neg h5, if_neg h6, if_neg h7, if_neg hp, if_pos hb]
                      rw [he]
                      simp only [List.cons_append]
                      rw [parseStringBodyF]
                      rw [if_neg (by decide), if_pos rfl]
                      have hu : unescape1 ('u' :: (hex4 c.toNat ++
                          (escapeList s' ++ '"' :: rest))) =
                          some (c, escapeList s' ++ '"' :: rest) := by
                        rw [unescape1_u, unescapeU_hex c.toNat hb (by
                          rcases char_valid_range c with h | h <;> omega), mkChar,
                          Char.ofNat_toNat]
                      rw [hu]
                      simp only [hih]
                    · have hup : c.toNat < 0x110000 := by
                        rcases char_valid_range c with h | h <;> omega
                      have he : escapeChar c =
                          ('\\' :: 'u' :: hex4 (0xD800 + (c.toNat - 0x10000) / 0x400)) ++
                            ('\\' :: 'u' :: hex4 (0xDC00 + (c.toNat - 0x10000) % 0x400)) := by
                        rw [escapeChar, if_neg h1, if_neg h2, if_neg h3, if_neg h4,
                          if_neg h5, if_neg h6, if_neg h7, if_neg hp, if_neg hb]
                      rw [he]
                      simp only [List.cons_append, List.append_assoc]
                      rw [parseStringBodyF]
                      rw [if_neg (by decide), if_pos rfl]
                      have hu : unescape1 ('u' :: (hex4 (0xD800 + (c.toNat - 0x10000) / 0x400) ++
                          ('\\' :: 'u' :: (hex4 (0xDC00 + (c.toNat - 0x10000) % 0x400) ++
                            (escapeList s' ++ '"' :: rest))))) =
                          some (c, escapeList s' ++ '"' :: rest) := by
                        rw [unescape1_u]
                        have := unescapeU_surrogates c.toNat (by omega) hup
                          (escapeList s' ++ '"' :: rest)
                        rw [List.cons_append, List.cons_append] at this
                        rw [this, mkChar, Char.ofNat_toNat]
                      rw [hu]
                      simp only [hih]

/-- Nested induction principle for `Json`. -/
theorem Json.myInduction (P : Json → Prop)
    (hnull : P .null) (hbool : ∀ b, P (.bool b))
    (hnum : ∀ fl m e, P (.num fl m e)) (hstr : ∀ s, P (.str s))
    (harr : ∀ l, (∀ x ∈ l, P x) → P (.arr l))
    (hobj : ∀ l, (∀ kv ∈ l, P kv.2) → P (.obj l)) : ∀ v, P v
  | .null => hnull
  | .bool b => hbool b
  | .num fl m e => hnum fl m e
  | .str s => hstr s
  | .arr l => harr l (fun x hx =>
      Json.myInduction P hnull hbool hnum hstr harr hobj x)
  | .obj l => hobj l (fun kv hkv =>
      Json.myInduction P hnull hbool hnum hstr harr hobj kv.2)
termination_by v => sizeOf v
decreasing_by
  · have h1 := List.sizeOf_lt_of_mem hx
    simp only [Json.arr.sizeOf_spec]
    omega
  · have h1 := List.sizeOf_lt_of_mem hkv
    have h2 : sizeOf kv.2 < sizeOf kv := by
      obtain ⟨k, v2⟩ := kv
      simp only [Prod.mk.sizeOf_spec]
      omega
    simp only [Json.obj.sizeOf_spec]
    omega

/-! ## Value-level round-trip support -/

theorem insertKV_fresh : ∀ (acc : List (String × Json)) (k : String) (v : Json),
    k ∉ acc.map Prod.fst → insertKV acc k v = acc ++ [(k, v)] := by
  intro acc k v h
  induction acc with
  | nil => rfl
  | cons kv acc' ih =>
    obtain ⟨k', v'⟩ := kv
    simp only [List.map_cons, List.mem_cons, not_or] at h
    rw [insertKV, if_neg (fun he => h.1 he.symm), ih h.2, List.cons_append]

theorem digit_not_ws {c : Char} (h : c.isDigit = true) :
    isJsonWs c = false ∧ c ≠ ']' ∧ c ≠ '}' ∧ c ≠ ',' := by
  refine ⟨?_, ?_, ?_, ?_⟩
  · have h1 : c ≠ ' ' := fun he => by subst he; exact absurd h (by decide)
    have h2 : c ≠ '\t' := fun he => by subst he; exact absurd h (by decide)
    have h3 : c ≠ '\n' := fun he => by subst he; exact absurd h (by decide)
    have h4 : c ≠ '\r' := fun he => by subst he; exact absurd h (by decide)
    simp [isJsonWs, h1, h2, h3, h4]
  · exact fun he => by subst he; exact absurd h (by decide)
  · exact fun he => by subst he; exact absurd h (by decide)
  · exact fun he => by subst he; exact absurd h (by decide)

theorem intToChars_head (m : Int) : ∃ c t, intToChars m = c :: t ∧
    (c.isDigit = true ∨ c = '-') := by
  rw [intToChars]
  by_cases hm : m < 0
  · rw [if_pos hm]
    exact ⟨'-', _, rfl, Or.inr rfl⟩
  · rw [if_neg hm]
    cases hx : natToChars m.natAbs with
    | nil => exact absurd hx (natToChars_ne_nil _)
    | cons y ys =>
      refine ⟨y, ys, rfl, Or.inl ?_⟩
      exact natToChars_digits _ y (by rw [hx]; exact List.mem_cons_self _ _)

/-- Character class facts for the head of a serialized value. -/
theorem dumpsV_head (v : Json) : ∃ c t, dumpsV v = c :: t ∧ isJsonWs c = false ∧
    c ≠ ']' ∧ c ≠ '}' := by
  have hn : ∀ c : Char, c ∈ (['n', 't', 'f', '"', '[', '\x7b'] : List Char) →
      isJsonWs c = false ∧ c ≠ ']' ∧ c ≠ '}' := by decide
  cases v with
  | null => exact ⟨'n', _, rfl, hn 'n' (by decide)⟩
  | bool b =>
    cases b with
    | true => exact ⟨'t', _, rfl, hn 't' (by decide)⟩
    | false => exact ⟨'f', _, rfl, hn 'f' (by decide)⟩
  | num fl m e =>
    obtain ⟨c, t, hct, hc⟩ := intToChars_head m
    cases fl with
    | false =>
      refine ⟨c, t, by rw [dumpsV, hct], ?_⟩
      rcases hc with h | h
      · exact ⟨(digit_not_ws h).1, (digit_not_ws h).2.1, (digit_not_ws h).2.2.1⟩
      · subst h; refine ⟨?_, ?_, ?_⟩ <;> decide
    | true =>
      refine ⟨c, t ++ 'e' :: intToChars e, by rw [dumpsV, hct, List.cons_append], ?_⟩
      rcases hc with h | h
      · exact ⟨(digit_not_ws h).1, (digit_not_ws h).2.1, (digit_not_ws h).2.2.1⟩
      · subst h; refine ⟨?_, ?_, ?_⟩ <;> decide
  | str s => exact ⟨'"', _, rfl, hn '"' (by decide)⟩
  | arr l =>
    cases l with
    | nil => exact ⟨'[', _, rfl, hn '[' (by decide)⟩
    | cons x xs => exact ⟨'[', _, rfl, hn '[' (by decide)⟩
  | obj l =>
    cases l with
    | nil => exact ⟨'\x7b', _, rfl, hn _ (by decide)⟩
    | cons kv kvs => exact ⟨'\x7b', _, rfl, hn _ (by decide)⟩

theorem skipWs_not_ws {c : Char} (h : isJsonWs c = false) (cs : List Char) :
    skipWs (c :: cs) = c :: cs := by
  rw [skipWs, List.dropWhile_cons, if_neg (by simp [h])]

theorem parseValueF_ws (f : Nat) (cs : List Char) :
    parseValueF (f + 1) (' ' :: cs) = parseValueF (f + 1) cs := by
  rw [parseValueF, parseValueF]
  have : skipWs (' ' :: cs) = skipWs cs := by
    rw [skipWs, skipWs, List.dropWhile_cons, if_pos (by decide)]
  rw [this]

theorem parseArrRest_ws (f : Nat) (cs : List Char) (acc : List Json) (b : Bool) :
    parseArrRest (f + 1) (' ' :: cs) acc b = parseArrRest (f + 1) cs acc b := by
  rw [parseArrRest, parseArrRest]
  have : skipWs (' ' :: cs) = skipWs cs := by
    rw [skipWs, skipWs, List.dropWhile_cons, if_pos (by decide)]
  rw [this]

theorem parseObjRest_ws (f : Nat) (cs : List Char) (acc : List (String × Json))
    (b : Bool) :
    parseObjRest (f + 1) (' ' :: cs) acc b = parseObjRest (f + 1) cs acc b := by
  rw [parseObjRest, parseObjRest]
  have : skipWs (' ' :: cs) = skipWs cs := by
    rw [skipWs, skipWs, List.dropWhile_cons, if_pos (by decide)]
  rw [this]

theorem digit_dispatch {c : Char} (h : c.isDigit = true) :
    c ≠ '{' ∧ c ≠ '[' ∧ c ≠ '"' ∧ c ≠ 't' ∧ c ≠ 'f' ∧ c ≠ 'n' := by
  refine ⟨?_, ?_, ?_, ?_, ?_, ?_⟩ <;>
    exact fun he => by subst he; exact absurd h (by decide)

theorem numSafe_cons {c : Char} (h : isNumChar c = false) (cs : List Char) :
    numSafe (c :: cs) := by
  intro c' hc'
  simp only [List.head?_cons, Option.some.injEq] at hc'
  rw [← hc']
  exact h

theorem escapeChar_length (c : Char) : 1 ≤ (escapeChar c).length := by
  unfold escapeChar
  repeat' split
  all_goals simp [hex4]

theorem escapeList_length (s : List Char) : s.length ≤ (escapeList s).length := by
  induction s with
  | nil => simp [escapeList]
  | cons c cs ih =>
    rw [escapeList, List.length_append, List.length_cons]
    have := escapeChar_length c
    omega

theorem dumpsV_length (v : Json) : 1 ≤ (dumpsV v).length := by
  obtain ⟨c, t, hct, -⟩ := dumpsV_head v
  rw [hct]
  simp

/-- One `parseArrRest` invocation parses one serialized element and either
closes the array or loops on the separator. -/
theorem parseArrRest_rt : ∀ (xs : List Json) (x : Json) (acc : List Json)
    (f : Nat) (b : Bool) (rest : List Char),
    RTP x → (∀ y ∈ xs, RTP y) →
    Json.size.sizeElems (x :: xs) ≤ f →
    parseArrRest f (dumpsV x ++ (dumpsElems xs ++ (']' :: rest))) acc b =
      some (.arr (acc ++ x :: xs), rest) := by
  intro xs
  induction xs with
  | nil =>
    intro x acc f b rest hx _ hf
    rw [Json.size.sizeElems, Json.size.sizeElems] at hf
    have hxle : x.size ≤ x.size ⊔ 1 := le_sup_left
    obtain ⟨f', rfl⟩ : ∃ f', f = f' + 1 := ⟨f - 1, by omega⟩
    obtain ⟨c, t, hct, hcw, hcbr, -⟩ := dumpsV_head x
    have hparse : parseValueF f' (c :: (t ++ (dumpsElems [] ++ ']' :: rest))) =
        some (x, ']' :: rest) := by
      rw [← List.cons_append, ← hct, dumpsElems, List.nil_append]
      exact hx f' _ (by omega) (numSafe_cons (by decide) rest)
    rw [parseArrRest, hct, List.cons_append, skipWs_not_ws hcw]
    simp only [if_neg hcbr, hparse, skipWs_not_ws (show isJsonWs ']' = false by decide)]
    simp
  | cons y ys ih =>
    intro x acc f b rest hx hall hf
    rw [Json.size.sizeElems] at hf
    have hxle : x.size ≤ x.size ⊔ Json.size.sizeElems (y :: ys) := le_sup_left
    have hyle : Json.size.sizeElems (y :: ys) ≤
        x.size ⊔ Json.size.sizeElems (y :: ys) := le_sup_right
    have hypos : 1 ≤ Json.size.sizeElems (y :: ys) := by
      rw [Json.size.sizeElems]; omega
    obtain ⟨f', rfl⟩ : ∃ f', f = f' + 1 := ⟨f - 1, by omega⟩
    obtain ⟨c, t, hct, hcw, hcbr, -⟩ := dumpsV_head x
    have hparse : parseValueF f'
        (c :: (t ++ (dumpsElems (y :: ys) ++ ']' :: rest))) =
        some (x, dumpsElems (y :: ys) ++ ']' :: rest) := by
      rw [← List.cons_append, ← hct]
      exact hx f' _ (by omega)
        (by rw [dumpsElems]; exact numSafe_cons (by decide) _)
    rw [parseArrRest, hct, List.cons_append, skipWs_not_ws hcw]
    simp only [if_neg hcbr, hparse]
    rw [dumpsElems, List.cons_append, List.cons_append,
      skipWs_not_ws (show isJsonWs ',' = false by decide)]
    simp only [if_pos rfl, if_true]
    obtain ⟨f'', rfl⟩ : ∃ f'', f' = f'' + 1 := ⟨f' - 1, by omega⟩
    rw [List.cons_append, List.cons_append, parseArrRest_ws, List.append_assoc]
    rw [ih y (acc ++ [x]) (f'' + 1) false rest (hall y (List.mem_cons_self _ _))
      (fun z hz => hall z (List.mem_cons_of_mem _ hz))
      (by omega)]
    simp

theorem size_pos (v : Json) : 1 ≤ v.size := by
  cases v <;> rw [Json.size] <;> omega

theorem parseStringBody_rt (s : List Char) (rest : List Char) :
    parseStringBody (escapeList s ++ '"' :: rest) = some (s, rest) := by
  rw [parseStringBody]
  refine parseStringBodyF_rt s _ ?_ rest
  have h1 := escapeList_length s
  simp only [List.length_append, List.length_cons]
  omega

/-- One `parseObjRest` invocation parses one serialized member and either
closes the object or loops on the separator; fresh keys append in order. -/
theorem parseObjRest_rt : ∀ (kvs : List (String × Json)) (kv : String × Json)
    (acc : List (String × Json)) (f : Nat) (b : Bool) (rest : List Char),
    RTP kv.2 → (∀ p ∈ kvs, RTP p.2) →
    (∀ k ∈ (kv :: kvs).map Prod.fst, k ∉ acc.map Prod.fst) →
    wfMembers (kv :: kvs) = true →
    Json.size.sizeMembers (kv :: kvs) ≤ f →
    parseObjRest f (dumpsKV kv ++ (dumpsMembers kvs ++ ('}' :: rest))) acc b =
      some (.obj (acc ++ kv :: kvs), rest) := by
  intro kvs
  induction kvs with
  | nil =>
    intro kv acc f b rest hv0 _ hfresh hwf hf0
    obtain ⟨k, v⟩ := kv
    rw [Json.size.sizeMembers, Json.size.sizeMembers] at hf0
    have hf : 1 + v.size ⊔ 1 ≤ f := hf0
    have hv : RTP v := hv0
    have hvpos := size_pos v
    have hvle : v.size ≤ v.size ⊔ 1 := le_sup_left
    obtain ⟨f', rfl⟩ : ∃ f', f = f' + 1 := ⟨f - 1, by omega⟩
    rw [parseObjRest, dumpsKV, List.cons_append, List.cons_append,
      skipWs_not_ws (show isJsonWs '"' = false by decide)]
    simp only [if_neg (show ('"' : Char) ≠ '}' by decide), if_pos rfl, if_true]
    rw [List.append_assoc, List.cons_append, parseStringBody_rt,
      List.cons_append, List.cons_append]
    simp only [skipWs_not_ws (show isJsonWs ':' = false by decide), if_pos rfl,
      if_true]
    obtain ⟨f'', rfl⟩ : ∃ f'', f' = f'' + 1 := ⟨f' - 1, by omega⟩
    rw [parseValueF_ws, dumpsMembers, List.nil_append]
    rw [hv (f'' + 1) _ (by omega) (numSafe_cons (by decide) rest)]
    simp only [skipWs_not_ws (show isJsonWs '}' = false by decide),
      if_neg (show ('}' : Char) ≠ ',' by decide), if_pos rfl, if_true]
    have hins : insertKV acc (String.mk k.data) v = acc ++ [(k, v)] :=
      insertKV_fresh acc k v (hfresh k (by simp))
    rw [hins]
  | cons kv' kvs' ih =>
    intro kv acc f b rest hv0 hall hfresh hwf hf0
    have hwf' : wfMembers (kv' :: kvs') = true := by
      rw [wfMembers] at hwf
      simp only [Bool.and_eq_true] at hwf
      exact hwf.2
    have hknew : kv.1 ∉ (kv' :: kvs').map Prod.fst := by
      rw [wfMembers] at hwf
      simp only [Bool.and_eq_true, decide_eq_true_eq] at hwf
      exact hwf.1.2
    obtain ⟨k, v⟩ := kv
    rw [Json.size.sizeMembers] at hf0
    have hf : 1 + v.size ⊔ Json.size.sizeMembers (kv' :: kvs') ≤ f := hf0
    have hv : RTP v := hv0
    have hvpos := size_pos v
    have hvle : v.size ≤ v.size ⊔ Json.size.sizeMembers (kv' :: kvs') :=
      le_sup_left
    have hmle : Json.size.sizeMembers (kv' :: kvs') ≤
        v.size ⊔ Json.size.sizeMembers (kv' :: kvs') := le_sup_right
    have hmpos : 1 ≤ Json.size.sizeMembers (kv' :: kvs') := by
      rw [Json.size.sizeMembers]; omega
    obtain ⟨f', rfl⟩ : ∃ f', f = f' + 1 := ⟨f - 1, by omega⟩
    rw [parseObjRest, dumpsKV, List.cons_append, List.cons_append,
      skipWs_not_ws (show isJsonWs '"' = false by decide)]
    simp only [if_neg (show ('"' : Char) ≠ '}' by decide), if_pos rfl, if_true]
    rw [List.append_assoc, List.cons_append, parseStringBody_rt,
      List.cons_append, List.cons_append]
    simp only [skipWs_not_ws (show isJsonWs ':' = false by decide), if_pos rfl,
      if_true]
    obtain ⟨f'', rfl⟩ : ∃ f'', f' = f'' + 1 := ⟨f' - 1, by omega⟩
    rw [parseValueF_ws]
    rw [hv (f'' + 1) _ (by omega)
      (by rw [dumpsMembers]; exact numSafe_cons (by decide) _)]
    rw [dumpsMembers, List.cons_append, List.cons_append]
    simp only [skipWs_not_ws (show isJsonWs ',' = false by decide), if_pos rfl,
      if_true]
    rw [List.cons_append, List.cons_append, parseObjRest_ws, List.append_assoc]
    have hins : insertKV acc (String.mk k.data) v = acc ++ [(k, v)] :=
      insertKV_fresh acc k v (hfresh k (by simp))
    rw [hins]
    rw [ih kv' (acc ++ [(k, v)]) (f'' + 1) false rest
      (hall kv' (List.mem_cons_self _ _))
      (fun p hp => hall p (List.mem_cons_of_mem _ hp))
      (by
        intro k2 hk2
        simp only [List.map_append, List.map_cons, List.map_nil,
          List.mem_append, List.mem_singleton]
        rintro (hk2a | hk2b)
        · exact hfresh k2 (by simp at hk2 ⊢; tauto) hk2a
        · subst hk2b
          exact hknew hk2)
      hwf' (by omega)]
    simp

theorem wfElems_mem : ∀ {l : List Json}, wfElems l = true →
    ∀ x ∈ l, wfJson x = true := by
  intro l
  induction l with
  | nil => intro _ x hx; cases hx
  | cons y ys ih =>
    intro h x hx
    rw [wfElems, Bool.and_eq_true] at h
    rcases List.mem_cons.mp hx with rfl | hx
    · exact h.1
    · exact ih h.2 x hx

theorem wfMembers_mem : ∀ {l : List (String × Json)}, wfMembers l = true →
    ∀ kv ∈ l, wfJson kv.2 = true := by
  intro l
  induction l with
  | nil => intro _ x hx; cases hx
  | cons y ys ih =>
    intro h x hx
    rw [wfMembers, Bool.and_eq_true, Bool.and_eq_true] at h
    rcases List.mem_cons.mp hx with rfl | hx
    · exact h.1.1
    · exact ih h.2 x hx

/-- A well-formed value followed by token-safe text round-trips through the
scanner at any fuel at least its size. -/
theorem parseValueF_rt : ∀ v : Json, wfJson v = true → RTP v := by
  intro v
  induction v using Json.myInduction with
  | hnull =>
    intro _ f rest hf hsafe
    rw [Json.size] at hf
    obtain ⟨f', rfl⟩ : ∃ f', f = f' + 1 := ⟨f - 1, by omega⟩
    simp [parseValueF, dumpsV,
      skipWs_not_ws (show isJsonWs 'n' = false by decide), List.take, List.drop]
  | hbool b =>
    intro _ f rest hf hsafe
    rw [Json.size] at hf
    obtain ⟨f', rfl⟩ : ∃ f', f = f' + 1 := ⟨f - 1, by omega⟩
    cases b
    · simp [parseValueF, dumpsV,
        skipWs_not_ws (show isJsonWs 'f' = false by decide), List.take, List.drop]
    · simp [parseValueF, dumpsV,
        skipWs_not_ws (show isJsonWs 't' = false by decide), List.take, List.drop]
  | hnum fl m e =>
    intro hwf f rest hf hsafe
    rw [Json.size] at hf
    obtain ⟨f', rfl⟩ : ∃ f', f = f' + 1 := ⟨f - 1, by omega⟩
    cases fl with
    | false =>
      rw [wfJson] at hwf
      simp only [Bool.false_or, decide_eq_true_eq] at hwf
      subst hwf
      rw [parseValueF, dumpsV]
      obtain ⟨c, t, hct, hcd⟩ := intToChars_head m
      have hcw : isJsonWs c = false := by
        rcases hcd with h | h
        · exact (digit_not_ws h).1
        · subst h; decide
      have hc6 : c ≠ '{' ∧ c ≠ '[' ∧ c ≠ '"' ∧ c ≠ 't' ∧ c ≠ 'f' ∧ c ≠ 'n' := by
        rcases hcd with h | h
        · exact digit_dispatch h
        · subst h; refine ⟨by decide, by decide, by decide, by decide,
            by decide, by decide⟩
      rw [hct, List.cons_append, skipWs_not_ws hcw]
      simp only [if_neg hc6.1, if_neg hc6.2.1, if_neg hc6.2.2.1,
        if_neg hc6.2.2.2.1, if_neg hc6.2.2.2.2.1, if_neg hc6.2.2.2.2.2,
        if_pos hcd]
      rw [← List.cons_append, ← hct]
      exact parseNumber_rt (intToChars_numChars m) (numFromToken_int m) hsafe
    | true =>
      rw [parseValueF, dumpsV]
      obtain ⟨c, t, hct, hcd⟩ := intToChars_head m
      have hcw : isJsonWs c = false := by
        rcases hcd with h | h
        · exact (digit_not_ws h).1
        · subst h; decide
      have hc6 : c ≠ '{' ∧ c ≠ '[' ∧ c ≠ '"' ∧ c ≠ 't' ∧ c ≠ 'f' ∧ c ≠ 'n' := by
        rcases hcd with h | h
        · exact digit_dispatch h
        · subst h; refine ⟨by decide, by decide, by decide, by decide,
            by decide, by decide⟩
      rw [hct, List.cons_append, List.cons_append, skipWs_not_ws hcw]
      simp only [if_neg hc6.1, if_neg hc6.2.1, if_neg hc6.2.2.1,
        if_neg hc6.2.2.2.1, if_neg hc6.2.2.2.2.1, if_neg hc6.2.2.2.2.2,
        if_pos hcd]
      rw [← List.cons_append, ← List.cons_append, ← hct]
      refine parseNumber_rt ?_ (numFromToken_float m e) hsafe
      intro c' hc'
      rcases List.mem_append.mp hc' with h | h
      · exact intToChars_numChars m c' h
      · rcases List.mem_cons.mp h with rfl | h
        · decide
        · exact intToChars_numChars e c' h
  | hstr s =>
    intro _ f rest hf hsafe
    rw [Json.size] at hf
    obtain ⟨f', rfl⟩ : ∃ f', f = f' + 1 := ⟨f - 1, by omega⟩
    rw [parseValueF, dumpsV, List.cons_append, List.cons_append,
      skipWs_not_ws (show isJsonWs '"' = false by decide)]
    simp only [if_neg (show ('"' : Char) ≠ '{' by decide),
      if_neg (show ('"' : Char) ≠ '[' by decide), if_pos rfl, if_true]
    rw [List.append_assoc, List.singleton_append, parseStringBody_rt]
  | harr l ih =>
    intro hwf f rest hf hsafe
    rw [wfJson] at hwf
    rw [Json.size] at hf
    cases l with
    | nil =>
      rw [Json.size.sizeElems] at hf
      obtain ⟨f', rfl⟩ : ∃ f', f = f' + 1 := ⟨f - 1, by omega⟩
      obtain ⟨f'', rfl⟩ : ∃ f'', f' = f'' + 1 := ⟨f' - 1, by omega⟩
      rw [parseValueF, dumpsV, List.cons_append,
        skipWs_not_ws (show isJsonWs '[' = false by decide)]
      simp only [if_neg (show ('[' : Char) ≠ '{' by decide), if_pos rfl, if_true]
      rw [List.singleton_append, parseArrRest,
        skipWs_not_ws (show isJsonWs ']' = false by decide)]
      simp
    | cons x xs =>
      have hszpos : 1 ≤ Json.size.sizeElems (x :: xs) := by
        rw [Json.size.sizeElems]; omega
      obtain ⟨f', rfl⟩ : ∃ f', f = f' + 1 := ⟨f - 1, by omega⟩
      rw [parseValueF, dumpsV, List.cons_append, List.cons_append,
        List.cons_append, skipWs_not_ws (show isJsonWs '[' = false by decide)]
      simp only [if_neg (show ('[' : Char) ≠ '{' by decide), if_pos rfl, if_true]
      rw [List.append_assoc, List.append_assoc, List.singleton_append]
      rw [parseArrRest_rt xs x [] f' true rest
        (ih x (List.mem_cons_self _ _) (wfElems_mem hwf x (List.mem_cons_self _ _)))
        (fun y hy => ih y (List.mem_cons_of_mem _ hy)
          (wfElems_mem hwf y (List.mem_cons_of_mem _ hy)))
        (by omega)]
      simp
  | hobj l ih =>
    intro hwf f rest hf hsafe
    rw [wfJson] at hwf
    rw [Json.size] at hf
    cases l with
    | nil =>
      rw [Json.size.sizeMembers] at hf
      obtain ⟨f', rfl⟩ : ∃ f', f = f' + 1 := ⟨f - 1, by omega⟩
      obtain ⟨f'', rfl⟩ : ∃ f'', f' = f'' + 1 := ⟨f' - 1, by omega⟩
      rw [parseValueF, dumpsV, List.cons_append,
        skipWs_not_ws (show isJsonWs '{' = false by decide)]
      simp only [if_pos rfl, if_true]
      rw [List.singleton_append, parseObjRest,
        skipWs_not_ws (show isJsonWs '}' = false by decide)]
      simp
    | cons kv kvs =>
      have hszpos : 1 ≤ Json.size.sizeMembers (kv :: kvs) := by
        rw [Json.size.sizeMembers]; omega
      obtain ⟨f', rfl⟩ : ∃ f', f = f' + 1 := ⟨f - 1, by omega⟩
      rw [parseValueF, dumpsV, List.cons_append, List.cons_append,
        List.cons_append, skipWs_not_ws (show isJsonWs '{' = false by decide)]
      simp only [if_pos rfl, if_true]
      rw [List.append_assoc, List.append_assoc, List.singleton_append]
      rw [parseObjRest_rt kvs kv [] f' true rest
        (ih kv (List.mem_cons_self _ _) (wfMembers_mem hwf kv (List.mem_cons_self _ _)))
        (fun p hp => ih p (List.mem_cons_of_mem _ hp)
          (wfMembers_mem hwf p (List.mem_cons_of_mem _ hp)))
        (by intro k hk; simp)
        hwf (by omega)]
      simp

/-- Unfolding of `numFromToken` with every `let`-bound intermediate named. -/
theorem numFromToken_split (tok : List Char) (t1 ip t2 fp t4 t5 t6 ed : List Char)
    (neg : Bool) (esign : Int)
    (ht1 : t1 = (if tok.head? = some '-' then tok.tail else tok))
    (hneg : neg = decide (tok.head? = some '-'))
    (hip : ip = t1.takeWhile Char.isDigit)
    (ht2 : t2 = t1.drop ip.length)
    (hfp : fp = (if t2.head? = some '.' then t2.tail.takeWhile Char.isDigit else []))
    (ht4 : t4 = (if t2.head? = some '.' then t2.tail.drop fp.length else t2))
    (ht5 : t5 = t4.tail)
    (hesign : esign = (if t5.head? = some '-' then -1 else 1))
    (ht6 : t6 = (if t5.head? = some '+' ∨ t5.head? = some '-' then t5.tail else t5))
    (hed : ed = t6.takeWhile Char.isDigit) :
    numFromToken tok =
      (if ip = [] then none
       else if 1 < ip.length ∧ ip.head? = some '0' then none
       else if t2.head? = some '.' ∧ fp = [] then none
       else if t4 = [] then
         some (.num (decide (fp ≠ []))
           (if neg = true then -(digitsVal (ip ++ fp) : Int)
            else (digitsVal (ip ++ fp) : Int))
           (-(fp.length : Int)))
       else if t4.head? = some 'e' ∨ t4.head? = some 'E' then
         (if ed = [] ∨ t6.drop ed.length ≠ [] then none
          else some (.num true
            (if neg = true then -(digitsVal (ip ++ fp) : Int)
             else (digitsVal (ip ++ fp) : Int))
            (esign * (digitsVal ed : Int) - (fp.length : Int))))
       else none) := by
  subst ht1 hneg hip ht2 hfp ht4 ht5 hesign ht6 hed
  rfl

theorem wf_num_aux (fp : List Char) (m : Int) :
    wfJson (.num (decide (fp ≠ [])) m (-(fp.length : Int))) = true := by
  rw [wfJson]
  by_cases hfp : fp = []
  · subst hfp; simp
  · simp [hfp]

/-- Every number the token validator accepts satisfies the int/float exponent
discipline recorded by `wfJson`. -/
theorem numFromToken_wf {tok : List Char} {j : Json}
    (h : numFromToken tok = some j) : wfJson j = true := by
  obtain ⟨t1, ht1⟩ : ∃ x, x = (if tok.head? = some '-' then tok.tail else tok) :=
    ⟨_, rfl⟩
  obtain ⟨neg, hneg⟩ : ∃ x, x = decide (tok.head? = some '-') := ⟨_, rfl⟩
  obtain ⟨ip, hip⟩ : ∃ x, x = t1.takeWhile Char.isDigit := ⟨_, rfl⟩
  obtain ⟨t2, ht2⟩ : ∃ x, x = t1.drop ip.length := ⟨_, rfl⟩
  obtain ⟨fp, hfp⟩ : ∃ x, x =
      (if t2.head? = some '.' then t2.tail.takeWhile Char.isDigit else []) :=
    ⟨_, rfl⟩
  obtain ⟨t4, ht4⟩ : ∃ x, x =
      (if t2.head? = some '.' then t2.tail.drop fp.length else t2) := ⟨_, rfl⟩
  obtain ⟨t5, ht5⟩ : ∃ x, x = t4.tail := ⟨_, rfl⟩
  obtain ⟨esign, hesign⟩ : ∃ x : Int, x =
      (if t5.head? = some '-' then -1 else 1) := ⟨_, rfl⟩
  obtain ⟨t6, ht6⟩ : ∃ x, x =
      (if t5.head? = some '+' ∨ t5.head? = some '-' then t5.tail else t5) :=
    ⟨_, rfl⟩
  obtain ⟨ed, hed⟩ : ∃ x, x = t6.takeWhile Char.isDigit := ⟨_, rfl⟩
  rw [numFromToken_split tok t1 ip t2 fp t4 t5 t6 ed neg esign ht1 hneg hip ht2
    hfp ht4 ht5 hesign ht6 hed] at h
  repeat' split at h
  all_goals first
    | exact Option.noConfusion h
    | (obtain rfl := Option.some.inj h; exact wf_num_aux _ _)
    | (obtain rfl := Option.some.inj h; rw [wfJson]; simp)

theorem wfElems_append (l : List Json) (v : Json) :
    wfElems (l ++ [v]) = (wfElems l && wfJson v) := by
  induction l with
  | nil => simp [wfElems]
  | cons x xs ih =>
    rw [List.cons_append, wfElems, ih, wfElems, Bool.and_assoc]

theorem insertKV_keys (acc : List (String × Json)) (k : String) (v : Json) :
    (insertKV acc k v).map Prod.fst =
      (if k ∈ acc.map Prod.fst then acc.map Prod.fst
       else acc.map Prod.fst ++ [k]) := by
  induction acc with
  | nil => simp [insertKV]
  | cons kv rest ih =>
    rw [insertKV]
    by_cases hk : kv.1 = k
    · rw [if_pos hk]
      simp [hk]
    · rw [if_neg hk, List.map_cons, List.map_cons, ih]
      by_cases hmem : k ∈ rest.map Prod.fst
      · rw [if_pos hmem, if_pos (by simp [hmem])]
      · rw [if_neg hmem,
          if_neg (by simp [hmem]; exact fun he => hk he.symm)]
        simp

theorem insertKV_wf {acc : List (String × Json)} {k : String} {v : Json}
    (hacc : wfMembers acc = true) (hv : wfJson v = true) :
    wfMembers (insertKV acc k v) = true := by
  induction acc with
  | nil => simp [insertKV, wfMembers, hv]
  | cons kv rest ih =>
    rw [wfMembers, Bool.and_eq_true, Bool.and_eq_true] at hacc
    obtain ⟨⟨hv', hfr⟩, hrest⟩ := hacc
    rw [insertKV]
    by_cases hk : kv.1 = k
    · rw [if_pos hk, wfMembers]
      simp only [Bool.and_eq_true]
      exact ⟨⟨hv, hfr⟩, hrest⟩
    · rw [if_neg hk, wfMembers]
      simp only [Bool.and_eq_true]
      refine ⟨⟨hv', ?_⟩, ih hrest⟩
      rw [decide_eq_true_eq] at hfr ⊢
      rw [insertKV_keys]
      by_cases hmem : k ∈ rest.map Prod.fst
      · rw [if_pos hmem]; exact hfr
      · rw [if_neg hmem]
        simp only [List.mem_append, List.mem_singleton]
        rintro (hin | rfl)
        · exact hfr hin
        · exact hk rfl

/-- Everything the fueled scanner returns is well-formed, at every fuel. -/
theorem parseF_wf : ∀ f : Nat,
    (∀ cs v r, parseValueF f cs = some (v, r) → wfJson v = true) ∧
    (∀ cs acc b v r, wfMembers acc = true →
      parseObjRest f cs acc b = some (v, r) → wfJson v = true) ∧
    (∀ cs acc b v r, wfElems acc = true →
      parseArrRest f cs acc b = some (v, r) → wfJson v = true) := by
  intro f
  induction f with
  | zero =>
    refine ⟨?_, ?_, ?_⟩
    · intro cs v r h; rw [parseValueF] at h; exact Option.noConfusion h
    · intro cs acc b v r _ h; rw [parseObjRest] at h; exact Option.noConfusion h
    · intro cs acc b v r _ h; rw [parseArrRest] at h; exact Option.noConfusion h
  | succ f ih =>
    obtain ⟨ihv, iho, iha⟩ := ih
    refine ⟨?_, ?_, ?_⟩
    · intro cs v r h
      rw [parseValueF] at h
      cases hsw : skipWs cs with
      | nil => rw [hsw] at h; exact Option.noConfusion h
      | cons c rest =>
        rw [hsw] at h
        simp only [] at h
        by_cases hc1 : c = '{'
        · rw [if_pos hc1] at h
          exact iho _ _ _ _ _ (by rfl) h
        · rw [if_neg hc1] at h
          by_cases hc2 : c = '['
          · rw [if_pos hc2] at h
            exact iha _ _ _ _ _ (by rfl) h
          · rw [if_neg hc2] at h
            by_cases hc3 : c = '"'
            · rw [if_pos hc3] at h
              cases hps : parseStringBody rest with
              | none => rw [hps] at h; exact Option.noConfusion h
              | some p =>
                rw [hps] at h
                obtain ⟨s, r1⟩ := p
                simp only [Option.some.injEq, Prod.mk.injEq] at h
                obtain ⟨rfl, rfl⟩ := h
                rfl
            · rw [if_neg hc3] at h
              by_cases hc4 : c = 't'
              · rw [if_pos hc4] at h
                by_cases ht : rest.take 3 = ['r', 'u', 'e']
                · rw [if_pos ht] at h
                  simp only [Option.some.injEq, Prod.mk.injEq] at h
                  obtain ⟨rfl, rfl⟩ := h
                  rfl
                · rw [if_neg ht] at h; exact Option.noConfusion h
              · rw [if_neg hc4] at h
                by_cases hc5 : c = 'f'
                · rw [if_pos hc5] at h
                  by_cases ht : rest.take 4 = ['a', 'l', 's', 'e']
                  · rw [if_pos ht] at h
                    simp only [Option.some.injEq, Prod.mk.injEq] at h
                    obtain ⟨rfl, rfl⟩ := h
                    rfl
                  · rw [if_neg ht] at h; exact Option.noConfusion h
                · rw [if_neg hc5] at h
                  by_cases hc6 : c = 'n'
                  · rw [if_pos hc6] at h
                    by_cases ht : rest.take 3 = ['u', 'l', 'l']
                    · rw [if_pos ht] at h
                      simp only [Option.some.injEq, Prod.mk.injEq] at h
                      obtain ⟨rfl, rfl⟩ := h
                      rfl
                    · rw [if_neg ht] at h; exact Option.noConfusion h
                  · rw [if_neg hc6] at h
                    by_cases hc7 : c.isDigit = true ∨ c = '-'
                    · rw [if_pos hc7, parseNumber] at h
                      cases hnf : numFromToken ((c :: rest).takeWhile isNumChar) with
                      | none => rw [hnf] at h; exact Option.noConfusion h
                      | some jn =>
                        rw [hnf] at h
                        simp only [Option.some.injEq, Prod.mk.injEq] at h
                        obtain ⟨rfl, rfl⟩ := h
                        exact numFromToken_wf hnf
                    · rw [if_neg hc7] at h; exact Option.noConfusion h
    · intro cs acc b v r hacc h
      rw [parseObjRest] at h
      cases hsw : skipWs cs with
      | nil => rw [hsw] at h; exact Option.noConfusion h
      | cons c rest =>
        rw [hsw] at h
        simp only [] at h
        by_cases hc1 : c = '}'
        · rw [if_pos hc1] at h
          by_cases hb : b = true
          · rw [if_pos hb] at h
            simp only [Option.some.injEq, Prod.mk.injEq] at h
            obtain ⟨rfl, rfl⟩ := h
            rw [wfJson]; exact hacc
          · rw [if_neg hb] at h; exact Option.noConfusion h
        · rw [if_neg hc1] at h
          by_cases hc2 : c = '"'
          · rw [if_pos hc2] at h
            cases hps : parseStringBody rest with
            | none => rw [hps] at h; exact Option.noConfusion h
            | some p =>
              rw [hps] at h
              obtain ⟨k, r1⟩ := p
              simp only [] at h
              cases hsw2 : skipWs r1 with
              | nil => rw [hsw2] at h; exact Option.noConfusion h
              | cons c2 r2 =>
                rw [hsw2] at h
                simp only [] at h
                by_cases hc3 : c2 = ':'
                · rw [if_pos hc3] at h
                  cases hpv : parseValueF f r2 with
                  | none => rw [hpv] at h; exact Option.noConfusion h
                  | some q =>
                    rw [hpv] at h
                    obtain ⟨val, r3⟩ := q
                    simp only [] at h
                    have hacc' : wfMembers (insertKV acc (String.mk k) val) = true :=
                      insertKV_wf hacc (ihv _ _ _ hpv)
                    cases hsw3 : skipWs r3 with
                    | nil => rw [hsw3] at h; exact Option.noConfusion h
                    | cons c3 r4 =>
                      rw [hsw3] at h
                      simp only [] at h
                      by_cases hc4 : c3 = ','
                      · rw [if_pos hc4] at h
                        exact iho _ _ _ _ _ hacc' h
                      · rw [if_neg hc4] at h
                        by_cases hc5 : c3 = '}'
                        · rw [if_pos hc5] at h
                          simp only [Option.some.injEq, Prod.mk.injEq] at h
                          obtain ⟨rfl, rfl⟩ := h
                          rw [wfJson]; exact hacc'
                        · rw [if_neg hc5] at h; exact Option.noConfusion h
                · rw [if_neg hc3] at h; exact Option.noConfusion h
          · rw [if_neg hc2] at h; exact Option.noConfusion h
    · intro cs acc b v r hacc h
      rw [parseArrRest] at h
      cases hsw : skipWs cs with
      | nil => rw [hsw] at h; exact Option.noConfusion h
      | cons c rest =>
        rw [hsw] at h
        simp only [] at h
        by_cases hc1 : c = ']'
        · rw [if_pos hc1] at h
          by_cases hb : b = true
          · rw [if_pos hb] at h
            simp only [Option.some.injEq, Prod.mk.injEq] at h
            obtain ⟨rfl, rfl⟩ := h
            rw [wfJson]; exact hacc
          · rw [if_neg hb] at h; exact Option.noConfusion h
        · rw [if_neg hc1] at h
          cases hpv : parseValueF f (c :: rest) with
          | none => rw [hpv] at h; exact Option.noConfusion h
          | some q =>
            rw [hpv] at h
            obtain ⟨val, r1⟩ := q
            simp only [] at h
            have hacc' : wfElems (acc ++ [val]) = true := by
              rw [wfElems_append, Bool.and_eq_true]
              exact ⟨hacc, ihv _ _ _ hpv⟩
            cases hsw2 : skipWs r1 with
            | nil => rw [hsw2] at h; exact Option.noConfusion h
            | cons c2 r2 =>
              rw [hsw2] at h
              simp only [] at h
              by_cases hc2 : c2 = ','
              · rw [if_pos hc2] at h
                exact iha _ _ _ _ _ hacc' h
              · rw [if_neg hc2] at h
                by_cases hc3 : c2 = ']'
                · rw [if_pos hc3] at h
                  simp only [Option.some.injEq, Prod.mk.injEq] at h
                  obtain ⟨rfl, rfl⟩ := h
                  rw [wfJson]; exact hacc'
                · rw [if_neg hc3] at h; exact Option.noConfusion h

/-- `json.loads` only produces well-formed values. -/
theorem parseJson_wf {cs : List Char} {v : Json} (h : parseJson cs = some v) :
    wfJson v = true := by
  rw [parseJson] at h
  cases hp : parseValueF (cs.length + 1) cs with
  | none => rw [hp] at h; exact Option.noConfusion h
  | some q =>
    obtain ⟨v', r⟩ := q
    rw [hp] at h
    simp only [] at h
    split at h
    · obtain rfl := Option.some.inj h
      exact (parseF_wf (cs.length + 1)).1 _ _ _ hp
    · exact Option.noConfusion h

theorem dropWhile_head_not {p : Char → Bool} : ∀ {cs rest : List Char}
    {c : Char}, cs.dropWhile p = c :: rest → p c = false := by
  intro cs
  induction cs with
  | nil => intro rest c h; exact absurd h (by simp)
  | cons a as ih =>
    intro rest c h
    by_cases hp : p a
    · rw [List.dropWhile_cons, if_pos hp] at h
      exact ih h
    · rw [List.dropWhile_cons, if_neg hp] at h
      obtain ⟨rfl, -⟩ := List.cons.inj h
      exact eq_false_of_ne_true hp

/-- Whatever `re.search` locates starts with the opening brace. -/
theorem extractSpan_head {cs s : List Char} (h : extractSpan cs = some s) :
    s.head? = some '{' := by
  rw [extractSpan] at h
  cases hdw : cs.dropWhile (· ≠ '{') with
  | nil => rw [hdw] at h; exact Option.noConfusion h
  | cons c rest =>
    rw [hdw] at h
    simp only [] at h
    split at h
    · obtain rfl := Option.some.inj h
      have hc := dropWhile_head_not hdw
      rw [decide_eq_false_iff_not, not_not] at hc
      rw [hc]
      rfl
    · exact Option.noConfusion h

/-- The object scanner only ever returns objects. -/
theorem parseObjRest_shape : ∀ (f : Nat) (cs : List Char)
    (acc : List (String × Json)) (b : Bool) (v : Json) (r : List Char),
    parseObjRest f cs acc b = some (v, r) → ∃ kvs, v = .obj kvs := by
  intro f
  induction f with
  | zero =>
    intro cs acc b v r h
    rw [parseObjRest] at h
    exact Option.noConfusion h
  | succ f ih =>
    intro cs acc b v r h
    rw [parseObjRest] at h
    repeat' split at h
    all_goals first
      | exact Option.noConfusion h
      | (simp only [Option.some.injEq, Prod.mk.injEq] at h; exact ⟨_, h.1.symm⟩)
      | exact ih _ _ _ _ _ h

/-- A parse of text that opens with `{` yields an object. -/
theorem parseJson_obj {cs : List Char} {v : Json} (hhead : cs.head? = some '{')
    (h : parseJson cs = some v) : ∃ kvs, v = .obj kvs := by
  obtain ⟨t, rfl⟩ : ∃ t, cs = '{' :: t := by
    cases cs with
    | nil => exact absurd hhead (by simp)
    | cons c t =>
      simp only [List.head?_cons, Option.some.injEq] at hhead
      exact ⟨t, by rw [hhead]⟩
  rw [parseJson] at h
  cases hp : parseValueF (('{' :: t).length + 1) ('{' :: t) with
  | none => rw [hp] at h; exact Option.noConfusion h
  | some q =>
    obtain ⟨v', r⟩ := q
    rw [hp] at h
    simp only [] at h
    split at h
    · obtain rfl := Option.some.inj h
      rw [List.length_cons, parseValueF,
        skipWs_not_ws (show isJsonWs '{' = false by decide)] at hp
      simp only [if_pos rfl, if_true] at hp
      exact parseObjRest_shape _ _ _ _ _ _ hp
    · exact Option.noConfusion h

theorem dumpsV_obj_head (kvs : List (String × Json)) :
    (dumpsV (.obj kvs)).head? = some '{' := by
  cases kvs <;> rfl

theorem dumpsV_obj_last (kvs : List (String × Json)) :
    (dumpsV (.obj kvs)).getLast? = some '}' := by
  cases kvs with
  | nil => rfl
  | cons kv kvs' =>
    rw [dumpsV]
    exact List.getLast?_concat _

theorem sizeElems_le (l : List Json)
    (h : ∀ x ∈ l, x.size ≤ (dumpsV x).length + 1) :
    Json.size.sizeElems l ≤ (dumpsElems l).length + 2 := by
  induction l with
  | nil => rw [Json.size.sizeElems]; simp [dumpsElems]
  | cons x xs ih =>
    rw [Json.size.sizeElems, dumpsElems]
    have hx := h x (List.mem_cons_self _ _)
    have hxs := ih (fun y hy => h y (List.mem_cons_of_mem _ hy))
    have hdx := dumpsV_length x
    have hm : x.size ⊔ Json.size.sizeElems xs ≤
        (dumpsV x).length + (dumpsElems xs).length + 3 :=
      sup_le (by omega) (by omega)
    simp only [List.length_cons, List.length_append]
    omega

theorem dumpsKV_length (kv : String × Json) :
    (dumpsV kv.2).length + 4 ≤ (dumpsKV kv).length := by
  obtain ⟨k, v⟩ := kv
  rw [dumpsKV]
  simp only [List.length_append, List.length_cons]
  omega

theorem sizeMembers_le (l : List (String × Json))
    (h : ∀ kv ∈ l, kv.2.size ≤ (dumpsV kv.2).length + 1) :
    Json.size.sizeMembers l ≤ (dumpsMembers l).length + 2 := by
  induction l with
  | nil => rw [Json.size.sizeMembers]; simp [dumpsMembers]
  | cons kv kvs ih =>
    rw [Json.size.sizeMembers, dumpsMembers]
    have hkv := h kv (List.mem_cons_self _ _)
    have hkvs := ih (fun p hp => h p (List.mem_cons_of_mem _ hp))
    have hdkv := dumpsKV_length kv
    have hm : kv.2.size ⊔ Json.size.sizeMembers kvs ≤
        (dumpsKV kv).length + (dumpsMembers kvs).length + 3 :=
      sup_le (by omega) (by omega)
    simp only [List.length_cons, List.length_append]
    omega

/-- The serialized form is always long enough to pay for the parsing fuel. -/
theorem size_le_dumps : ∀ v : Json, v.size ≤ (dumpsV v).length + 1 := by
  intro v
  induction v using Json.myInduction with
  | hnull => rw [Json.size]; omega
  | hbool b => rw [Json.size]; omega
  | hnum fl m e => rw [Json.size]; omega
  | hstr s => rw [Json.size]; omega
  | harr l ih =>
    cases l with
    | nil =>
      rw [Json.size, Json.size.sizeElems, dumpsV]
      simp
    | cons x xs =>
      rw [Json.size, Json.size.sizeElems, dumpsV]
      have hx := ih x (List.mem_cons_self _ _)
      have hxs := sizeElems_le xs (fun y hy => ih y (List.mem_cons_of_mem _ hy))
      have hdx := dumpsV_length x
      have hm : x.size ⊔ Json.size.sizeElems xs ≤
          (dumpsV x).length + (dumpsElems xs).length + 1 :=
        sup_le (by omega) (by omega)
      simp only [List.length_cons, List.length_append]
      omega
  | hobj l ih =>
    cases l with
    | nil =>
      rw [Json.size, Json.size.sizeMembers, dumpsV]
      simp
    | cons kv kvs =>
      rw [Json.size, Json.size.sizeMembers, dumpsV]
      have hkv := ih kv (List.mem_cons_self _ _)
      have hkvs := sizeMembers_le kvs (fun p hp => ih p (List.mem_cons_of_mem _ hp))
      have hdkv := dumpsKV_length kv
      have hm : kv.2.size ⊔ Json.size.sizeMembers kvs ≤
          (dumpsKV kv).length + (dumpsMembers kvs).length + 1 :=
        sup_le (by omega) (by omega)
      simp only [List.length_cons, List.length_append]
      omega

/-- `json.loads(json.dumps(v)) == v` for well-formed values. -/
theorem parseJson_dumpsV {v : Json} (hwf : wfJson v = true) :
    parseJson (dumpsV v) = some v := by
  rw [parseJson]
  have h := parseValueF_rt v hwf ((dumpsV v).length + 1) []
    (by have := size_le_dumps v; omega)
    (by intro c hc; exact absurd hc (by simp))
  rw [List.append_nil] at h
  rw [h]
  simp [skipWs]

theorem skipWs_ne_nil_of_mem {cs : List Char} {c : Char} (hc : c ∈ cs)
    (hw : isJsonWs c = false) : skipWs cs ≠ [] := by
  induction cs with
  | nil => cases hc
  | cons a as ih =>
    rcases List.mem_cons.mp hc with rfl | hmem
    · rw [skipWs, List.dropWhile_cons, if_neg (by simp [hw])]
      simp
    · rw [skipWs, List.dropWhile_cons]
      by_cases hpa : isJsonWs a = true
      · rw [if_pos (by simp [hpa])]
        exact ih hmem
      · rw [if_neg (by simpa using hpa)]
        simp

/-- An object's serialization parses back even when followed by arbitrary
text: the scanner stops at the matching close brace. -/
theorem parseDumpsObjFirst (kvs : List (String × Json))
    (hwf : wfJson (.obj kvs) = true) (f : Nat) (rest : List Char)
    (hf : Json.size (.obj kvs) ≤ f) :
    parseValueF f (dumpsV (.obj kvs) ++ rest) = some (.obj kvs, rest) := by
  rw [wfJson] at hwf
  rw [Json.size] at hf
  cases kvs with
  | nil =>
    rw [Json.size.sizeMembers] at hf
    obtain ⟨f', rfl⟩ : ∃ f', f = f' + 1 := ⟨f - 1, by omega⟩
    obtain ⟨f'', rfl⟩ : ∃ f'', f' = f'' + 1 := ⟨f' - 1, by omega⟩
    rw [parseValueF, dumpsV, List.cons_append,
      skipWs_not_ws (show isJsonWs '{' = false by decide)]
    simp only [if_pos rfl, if_true]
    rw [List.singleton_append, parseObjRest,
      skipWs_not_ws (show isJsonWs '}' = false by decide)]
    simp
  | cons kv kvs' =>
    have hszpos : 1 ≤ Json.size.sizeMembers (kv :: kvs') := by
      rw [Json.size.sizeMembers]; omega
    obtain ⟨f', rfl⟩ : ∃ f', f = f' + 1 := ⟨f - 1, by omega⟩
    rw [parseValueF, dumpsV, List.cons_append, List.cons_append,
      List.cons_append, skipWs_not_ws (show isJsonWs '{' = false by decide)]
    simp only [if_pos rfl, if_true]
    rw [List.append_assoc, List.append_assoc, List.singleton_append]
    rw [parseObjRest_rt kvs' kv [] f' true rest
      (parseValueF_rt kv.2 (wfMembers_mem hwf kv (List.mem_cons_self _ _)))
      (fun p hp => parseValueF_rt p.2
        (wfMembers_mem hwf p (List.mem_cons_of_mem _ hp)))
      (by intro k hk; simp)
      hwf (by omega)]
    simp

/-- When the raw text is exactly one backtick-free brace-delimited span, the
extractor pipeline passes it through untouched and parses it. -/
theorem extract_of_pure_object {obj : List Char} {v : Json}
    (hobj : '`' ∉ obj) (hhead : obj.head? = some '{')
    (hlast : obj.getLast? = some '}') (hparse : parseJson obj = some v) :
    extractOutcomeChars obj = .parsed v ∧ cleanParseChars obj = some v := by
  have hclean : cleanContent ([] ++ (obj ++ [])) = [] ++ (obj ++ []) := by
    unfold cleanContent
    obtain ⟨A1, B1, h1, hA1, hB1⟩ :=
      @delOcc_around ticksJson (by decide) (by decide) _ hobj hhead [] []
    obtain rfl := List.sublist_nil.mp hA1
    obtain rfl := List.sublist_nil.mp hB1
    rw [h1]
    obtain ⟨A2, B2, h2, hA2, hB2⟩ :=
      @delOcc_around ticks3 (by decide) (by decide) _ hobj hhead [] []
    obtain rfl := List.sublist_nil.mp hA2
    obtain rfl := List.sublist_nil.mp hB2
    rw [h2]
    obtain ⟨A3, B3, hA3, hB3, h3⟩ := pyStrip_around hhead hlast [] []
    obtain rfl := List.sublist_nil.mp hA3
    obtain rfl := List.sublist_nil.mp hB3
    rw [h3]
  have hclean' : cleanContent obj = obj := by
    simpa using hclean
  have hspan : extractSpan (cleanContent obj) = some obj := by
    rw [hclean']
    have := @extractSpan_around _ [] [] hhead hlast (by simp) (by simp)
    simpa using this
  have houtcome : extractOutcomeChars obj = .parsed v := by
    rw [extractOutcomeChars, hspan]
    simp only [] 
    rw [hparse]
  exact ⟨houtcome, by rw [cleanParseChars, houtcome]⟩

/-- C7: on any raw input where the extractor succeeds with value `v`, if the
re-serialization of `v` contains no backtick characters then re-running the
extractor on that re-serialization succeeds and returns a structure equal to
`v` (round-trip stability, corrected for the fence-stripping hazard). -/
theorem C7_roundtrip_of_backtick_free_serialization (raw : String) (v : Json)
    (hsucc : clean_and_parse_json raw = some v)
    (hbt : '`' ∉ dumpsV v) :
    clean_and_parse_json (String.mk (dumpsV v)) = some v := by
  have hkey : (∃ kvs, v = .obj kvs) ∧ wfJson v = true := by
    rw [clean_and_parse_json, cleanParseChars] at hsucc
    cases ho : extractOutcomeChars raw.data with
    | noJsonFound => rw [ho] at hsucc; exact Option.noConfusion hsucc
    | malformedJson s => rw [ho] at hsucc; exact Option.noConfusion hsucc
    | parsed v2 =>
      rw [ho] at hsucc
      simp only [] at hsucc
      obtain rfl := Option.some.inj hsucc
      rw [extractOutcomeChars] at ho
      cases hsp : extractSpan (cleanContent raw.data) with
      | none => rw [hsp] at ho; exact ExtractOutcome.noConfusion ho
      | some span =>
        rw [hsp] at ho
        simp only [] at ho
        cases hpj : parseJson span with
        | none => rw [hpj] at ho; exact ExtractOutcome.noConfusion ho
        | some v3 =>
          rw [hpj] at ho
          obtain rfl := ExtractOutcome.parsed.inj ho
          exact ⟨parseJson_obj (extractSpan_head hsp) hpj, parseJson_wf hpj⟩
  obtain ⟨⟨kvs, rfl⟩, hwf⟩ := hkey
  exact (extract_of_pure_object hbt (dumpsV_obj_head kvs) (dumpsV_obj_last kvs)
    (parseJson_dumpsV hwf)).2

/-- C7 counterexample to the unrestricted claim: the input
`{"a": "```"}` is extracted successfully as the mapping
`a ↦ "` ``` `"`, but its `json.dumps` re-serialization prints the three
backticks raw, the fence-stripping pass deletes them, and the second
extraction returns the different mapping `a ↦ ""`. -/
theorem C7_backtick_serialization_counterexample :
    clean_and_parse_json "\x7b\"a\": \"\\u0060\\u0060\\u0060\"\x7d" =
      some (.obj [("a", .str "```")]) ∧
    clean_and_parse_json (String.mk (dumpsV (.obj [("a", .str "```")]))) =
      some (.obj [("a", .str "")]) ∧
    Json.obj [("a", Json.str "")] ≠ Json.obj [("a", Json.str "```")] := by
  refine ⟨rfl, rfl, ?_⟩
  simp

theorem C7_roundtrip_of_backtick_free_serialization_witness :
    clean_and_parse_json "\x7b\"a\": 1\x7d" =
      some (Json.obj [("a", Json.num false 1 0)]) ∧
    '`' ∉ dumpsV (Json.obj [("a", Json.num false 1 0)]) ∧
    clean_and_parse_json
      (String.mk (dumpsV (Json.obj [("a", Json.num false 1 0)]))) =
      some (Json.obj [("a", Json.num false 1 0)]) :=
  ⟨rfl, by decide, C7_roundtrip_of_backtick_free_serialization
    "\x7b\"a\": 1\x7d" (Json.obj [("a", Json.num false 1 0)]) rfl (by decide)⟩

/-- C10: on raw text holding two serialized objects separated by brace-free
prose, the greedy span runs from the first `\x7b` to the last `\x7d`, the
combined span is not valid JSON (extra data after the first object), so the
extractor returns the malformed-JSON failure rather than the first object. -/
theorem C10_two_objects_yield_malformed (pre mid post : List Char)
    (kvs1 kvs2 : List (String × Json))
    (hpre1 : '{' ∉ pre) (hpre2 : '}' ∉ pre)
    (hmid1 : '{' ∉ mid) (hmid2 : '}' ∉ mid)
    (hpost1 : '{' ∉ post) (hpost2 : '}' ∉ post)
    (hbt1 : '`' ∉ dumpsV (Json.obj kvs1)) (hbtm : '`' ∉ mid)
    (hbt2 : '`' ∉ dumpsV (Json.obj kvs2))
    (hwf1 : wfJson (Json.obj kvs1) = true)
    (hwf2 : wfJson (Json.obj kvs2) = true) :
    cleanParseChars (pre ++ ((dumpsV (Json.obj kvs1) ++
      (mid ++ dumpsV (Json.obj kvs2))) ++ post)) = none ∧
    extractOutcomeChars (pre ++ ((dumpsV (Json.obj kvs1) ++
      (mid ++ dumpsV (Json.obj kvs2))) ++ post)) =
      .malformedJson (dumpsV (Json.obj kvs1) ++ (mid ++ dumpsV (Json.obj kvs2))) := by
  have hblock_head : (dumpsV (Json.obj kvs1) ++
      (mid ++ dumpsV (Json.obj kvs2))).head? = some '{' := by
    obtain ⟨t1, ht1⟩ : ∃ t, dumpsV (Json.obj kvs1) = '{' :: t := by
      have hh := dumpsV_obj_head kvs1
      cases hD : dumpsV (Json.obj kvs1) with
      | nil => rw [hD] at hh; exact absurd hh (by simp)
      | cons c t =>
        rw [hD] at hh
        simp only [List.head?_cons, Option.some.injEq] at hh
        exact ⟨t, by rw [hh]⟩
    rw [ht1]
    rfl
  have hblock_last : (dumpsV (Json.obj kvs1) ++
      (mid ++ dumpsV (Json.obj kvs2))).getLast? = some '}' := by
    rw [List.getLast?_append, List.getLast?_append, dumpsV_obj_last]
    rfl
  have hbt_block : '`' ∉ (dumpsV (Json.obj kvs1) ++
      (mid ++ dumpsV (Json.obj kvs2))) := by
    intro hm
    rcases List.mem_append.mp hm with h | h
    · exact hbt1 h
    · rcases List.mem_append.mp h with h | h
      · exact hbtm h
      · exact hbt2 h
  have hclean : ∃ A B, cleanContent (pre ++ ((dumpsV (Json.obj kvs1) ++
      (mid ++ dumpsV (Json.obj kvs2))) ++ post)) =
      A ++ ((dumpsV (Json.obj kvs1) ++ (mid ++ dumpsV (Json.obj kvs2))) ++ B) ∧
      A.Sublist pre ∧ B.Sublist post := by
    unfold cleanContent
    obtain ⟨A1, B1, h1, hA1, hB1⟩ := @delOcc_around ticksJson (by decide)
      (by decide) _ hbt_block hblock_head pre post
    rw [h1]
    obtain ⟨A2, B2, h2, hA2, hB2⟩ := @delOcc_around ticks3 (by decide)
      (by decide) _ hbt_block hblock_head A1 B1
    rw [h2]
    obtain ⟨A3, B3, hA3, hB3, h3⟩ := pyStrip_around hblock_head hblock_last A2 B2
    rw [h3]
    exact ⟨A3, B3, rfl, hA3.trans (hA2.trans hA1), hB3.trans (hB2.trans hB1)⟩
  obtain ⟨A, B, hc, hAs, hBs⟩ := hclean
  have hspan : extractSpan (cleanContent (pre ++ ((dumpsV (Json.obj kvs1) ++
      (mid ++ dumpsV (Json.obj kvs2))) ++ post))) =
      some (dumpsV (Json.obj kvs1) ++ (mid ++ dumpsV (Json.obj kvs2))) := by
    rw [hc]
    exact extractSpan_around hblock_head hblock_last
      (fun hm => hpre1 (List.Sublist.mem hm hAs))
      (fun hm => hpost2 (List.Sublist.mem hm hBs))
  have hmem2 : '{' ∈ mid ++ dumpsV (Json.obj kvs2) := by
    refine List.mem_append.mpr (Or.inr ?_)
    obtain ⟨t2, ht2⟩ : ∃ t, dumpsV (Json.obj kvs2) = '{' :: t := by
      have hh := dumpsV_obj_head kvs2
      cases hD : dumpsV (Json.obj kvs2) with
      | nil => rw [hD] at hh; exact absurd hh (by simp)
      | cons c t =>
        rw [hD] at hh
        simp only [List.head?_cons, Option.some.injEq] at hh
        exact ⟨t, by rw [hh]⟩
    rw [ht2]
    exact List.mem_cons_self _ _
  have hpj : parseJson (dumpsV (Json.obj kvs1) ++
      (mid ++ dumpsV (Json.obj kvs2))) = none := by
    rw [parseJson]
    rw [parseDumpsObjFirst kvs1 hwf1 _ (mid ++ dumpsV (Json.obj kvs2))
      (by
        have h1 := size_le_dumps (Json.obj kvs1)
        simp only [List.length_append]
        omega)]
    simp only []
    rw [if_neg (skipWs_ne_nil_of_mem hmem2 (by decide))]
  have houtcome : extractOutcomeChars (pre ++ ((dumpsV (Json.obj kvs1) ++
      (mid ++ dumpsV (Json.obj kvs2))) ++ post)) =
      .malformedJson (dumpsV (Json.obj kvs1) ++ (mid ++ dumpsV (Json.obj kvs2))) := by
    rw [extractOutcomeChars, hspan]
    simp only []
    rw [hpj]
  exact ⟨by rw [cleanParseChars, houtcome], houtcome⟩

theorem C10_two_objects_yield_malformed_witness :
    cleanParseChars ([] ++ ((dumpsV (Json.obj [("a", Json.num false 1 0)]) ++
      (" and ".data ++ dumpsV (Json.obj [("b", Json.num false 2 0)]))) ++ [])) =
      none :=
  (C10_two_objects_yield_malformed [] " and ".data []
    [("a", Json.num false 1 0)] [("b", Json.num false 2 0)]
    (by decide) (by decide) (by decide) (by decide) (by decide) (by decide)
    (by decide) (by decide) (by decide) (by decide) (by decide)).1
